import Mathlib

/-!
# ChanBroker: the broker goroutine as a state machine

A shallow embedding of `ChanBroker.go`.  The broker goroutine started by `run`
owns `subscribers`, `cachenum` and `timerChan` and handles one `select` case per
loop iteration, so every case of the `select` is one atomic transition of the
model (`step`).  Producers, consumers and the facade calls appear as events.

Modelling decisions (each one is visible in the definitions below):

* A `Subscriber` (a Go `chan Content`) is a record: the identity of the channel,
  its capacity, the values buffered in it, whether it was closed, and how
  many consumers are blocked in a receive on it.  A non-blocking send
  (`select { case sub <- v: ... default: ... }`) follows Go's `chansend`: it
  panics on a closed channel, hands the value straight to a blocked receiver
  when there is one, puts it into the buffer when there is room, and takes the
  `default` case otherwise.  A `close` of a closed channel is a panic as well.
  Consumers act through `Event.recv` (a receive that finds a buffered value),
  `Event.park` (a receive that finds the open inbox empty and blocks) and
  `Event.unpark` (a blocked receive that gives up, as one inside a `select` with
  a deadline can).
* `map[Subscriber]*list.List` is an association list.  Go ranges over a map in
  an unspecified order; the model ranges in list order.  What every entry
  becomes does not depend on the order; `pushAll_perm` and `flushAll_perm` show
  that the counter does not either as long as it covers the backlogs and does
  not wrap during the pass.
* `cachenum` is a `uint`: the guarded decrement `if cachenum > 0 { cachenum-- }`
  is kept as written, and `cachenum++` wraps around at `uintSize`.  The width
  of `uint` is the word size of the target, 32 or 64 bits; the model takes 32
  (`uintBits`), the width at which the wrap-around is within reach of a real
  run.  Of the width the proofs below use only that `1 < uintSize`.
* `timerChan` is `true` when the Go field is non-nil.  Durations are not
  modelled: a timer that is armed may fire at any later step.
* The stop channel has one slot.  A `StopBroker` call that finds the slot full
  blocks; it either runs into its deadline (`StopBroker`) or is served when the
  goroutine receives the buffered value, in which case its own value takes the
  freed slot before `close(broker.stop)` runs (`Event.stopHandOff`).
* `taken` (in `Subscriber`) records what the consumer has received so far.  It
  is a history variable: no transition reads it.
* The `contents` channel is kept next to the world (`System`): `PubContent`
  appends to it, and `Event.content c` is the goroutine taking `c` from it
  (`System.take`, `System.takeHandOff`).  The unbuffered `regSub` and
  `unRegSub` channels carry no state: their hand-off is the event itself.
-/

namespace Broker

/-- Go `type Content interface{}`: an opaque payload. -/
abbrev Content := String

/-- Go `type Subscriber chan Content`, with the state of the channel. -/
structure Subscriber where
  /-- identity of the channel value (channels are compared by reference) -/
  id : Nat
  /-- capacity passed to `make(Subscriber, size)` -/
  cap : Nat
  /-- values sent and not yet received, oldest first -/
  buf : List Content
  /-- whether `close(sub)` has run -/
  closed : Bool
  /-- history: values the consumer has received, oldest first -/
  taken : List Content
  /-- consumers blocked in a receive on the channel and not yet served by a
  send; a `close` releases them with the zero value, after which the count is
  not read any more -/
  waiting : Nat := 0
deriving DecidableEq

/-- The `stop chan bool` of capacity 1: whether a value is buffered, and
whether the channel was closed. -/
structure StopChan where
  pending : Bool
  closed : Bool
deriving DecidableEq

/-- One entry of `map[Subscriber]*list.List`: the inbox and its backlog. -/
abbrev Entry := Subscriber × List Content

/-- Go `type ChanBroker struct`, the fields the broker goroutine works on. -/
structure ChanBroker where
  stop : StopChan
  subscribers : List Entry
  cachenum : Nat
  /-- `true` iff `timerChan != nil` -/
  timerChan : Bool
deriving DecidableEq

/-- The error values declared by the package. -/
inductive Error where
  | ErrBrokerExit
  | ErrPublishTimeOut
  | ErrRegTimeOut
  | ErrStopBrokerTimeOut
deriving DecidableEq

/-- Width of Go's `uint` in bits: the word size of the target, 32 or 64.  The
model takes 32. -/
def uintBits : Nat := 32

/-- Number of values of a `uint`: `cachenum++` on `uintSize - 1` gives 0. -/
def uintSize : Nat := 2 ^ uintBits

/-- Outcome of `select { case sub <- v: ... default: ... }`. -/
inductive SendResult where
  /-- the send case ran; a blocked receiver or the buffer has the value -/
  | sent (sub : Subscriber)
  /-- the send would block; the `default` case ran -/
  | full
  /-- send on a closed channel -/
  | panic
deriving DecidableEq

/-- Non-blocking send of `v` on `sub`, in the order of Go's `chansend`: panic
on a closed channel; else hand-off to a blocked receiver, who has then
received `v`; else buffer; else `default`. -/
def trySend (sub : Subscriber) (v : Content) : SendResult :=
  if sub.closed then .panic
  else if 0 < sub.waiting then
    .sent { sub with taken := sub.taken ++ [v], waiting := sub.waiting - 1 }
  else if sub.buf.length < sub.cap then .sent { sub with buf := sub.buf ++ [v] }
  else .full

/-- Go `close(sub)`; `none` is the panic on a closed channel. -/
def closeSub (sub : Subscriber) : Option Subscriber :=
  if sub.closed then none else some { sub with closed := true }

/-- The flush loop of `onContentPush` / `onTimerPush` (lines 60-73, 98-111) for
one subscriber: walks the backlog from the front, sends each element on the
inbox, and stops at the first send that would block.  The third component is
`broker.cachenum`. -/
def flush : Subscriber → List Content → Nat → Option (Subscriber × List Content × Nat)
  | sub, [], n => some (sub, [], n)
  | sub, v :: rest, n =>
    match trySend sub v with
    | .sent sub1 => flush sub1 rest (if n > 0 then n - 1 else n)
    | .full => some (sub, v :: rest, n)
    | .panic => none

/-- Body of the `range` loop of `onContentPush` (lines 59-87) for one
subscriber.  `cachenum++` is an increment of a `uint`. -/
def pushSub (content : Content) (sub : Subscriber) (clist : List Content) (n : Nat) :
    Option (Subscriber × List Content × Nat) :=
  match flush sub clist n with
  | none => none
  | some (sub1, clist1, n1) =>
    if clist1.length = 0 then
      match trySend sub1 content with
      | .sent sub2 => some (sub2, clist1, n1)
      | .full => some (sub1, clist1 ++ [content], (n1 + 1) % uintSize)
      | .panic => none
    else
      some (sub1, clist1 ++ [content], (n1 + 1) % uintSize)

/-- The `range` loop of `onContentPush` over the registry, threading
`cachenum`. -/
def pushAll (content : Content) : List Entry → Nat → Option (List Entry × Nat)
  | [], n => some ([], n)
  | (sub, clist) :: rest, n =>
    match pushSub content sub clist n with
    | none => none
    | some (sub1, clist1, n1) =>
      match pushAll content rest n1 with
      | none => none
      | some (rest1, n2) => some ((sub1, clist1) :: rest1, n2)

/-- The `range` loop of `onTimerPush` over the registry, threading
`cachenum`. -/
def flushAll : List Entry → Nat → Option (List Entry × Nat)
  | [], n => some ([], n)
  | (sub, clist) :: rest, n =>
    match flush sub clist n with
    | none => none
    | some (sub1, clist1, n1) =>
      match flushAll rest n1 with
      | none => none
      | some (rest1, n2) => some ((sub1, clist1) :: rest1, n2)

/-- Go `onContentPush` (lines 58-94). -/
def onContentPush (broker : ChanBroker) (content : Content) : Option ChanBroker :=
  match pushAll content broker.subscribers broker.cachenum with
  | none => none
  | some (subs, n) =>
    some { broker with
      subscribers := subs
      cachenum := n
      timerChan := if n > 0 ∧ broker.timerChan = false then true else broker.timerChan }

/-- Go `onTimerPush` (lines 96-120). -/
def onTimerPush (broker : ChanBroker) : Option ChanBroker :=
  match flushAll broker.subscribers broker.cachenum with
  | none => none
  | some (subs, n) =>
    some { broker with
      subscribers := subs
      cachenum := n
      timerChan := if n > 0 then true else false }

/-- Go `NewChanBroker`: the broker before the goroutine has handled anything. -/
def NewChanBroker : ChanBroker :=
  { stop := { pending := false, closed := false }
    subscribers := []
    cachenum := 0
    timerChan := false }

/-- Closes every channel of a list, in order. -/
def closeAll : List Subscriber → Option (List Subscriber)
  | [] => some []
  | sub :: rest =>
    match closeSub sub with
    | none => none
    | some sub1 =>
      match closeAll rest with
      | none => none
      | some rest1 => some (sub1 :: rest1)

/-- The broker together with what lives outside it: whether the goroutine has
returned, the inboxes that were removed from the registry (consumers still hold
them), and the identity of the next channel that `make` creates. -/
structure World where
  broker : ChanBroker
  exited : Bool
  released : List Subscriber
  fresh : Nat
deriving DecidableEq

/-- State right after `NewChanBroker` returns. -/
def World.init : World :=
  { broker := NewChanBroker, exited := false, released := [], fresh := 0 }

/-- Lifecycle of the broker goroutine, read off the state: the stop channel is
closed by the first stop request, the goroutine returns at the end. -/
inductive LifecycleState where
  | Running
  | Draining
  | Stopped
deriving DecidableEq

/-- The lifecycle state of a world. -/
def World.lifecycle (w : World) : LifecycleState :=
  if w.exited then .Stopped
  else if w.broker.stop.closed then .Draining
  else .Running

/-- What can happen to the system in one step. -/
inductive Event where
  /-- `case content := <-broker.contents` -/
  | content (c : Content)
  /-- `case <-broker.timerChan` -/
  | timer
  /-- `RegSubscriber(size)` whose hand-off is taken by `case sub := <-broker.regSub` -/
  | regSub (size : Nat)
  /-- `case sub := <-broker.unRegSub`, for the channel with identity `h` -/
  | unRegSub (h : Nat)
  /-- `case _, ok := <-broker.stop` -/
  | stop
  /-- `StopBroker()` called by a client -/
  | stopBroker
  /-- a consumer receives a buffered value from the channel with identity `h` -/
  | recv (h : Nat)
  /-- a consumer starts a receive on the open, empty inbox `h` and blocks -/
  | park (h : Nat)
  /-- a consumer blocked in a receive on the inbox `h` gives up -/
  | unpark (h : Nat)
  /-- `case _, ok := <-broker.stop` while a `StopBroker` call is blocked in its
  send on the full stop channel -/
  | stopHandOff
deriving DecidableEq

/-- Why a step did not produce a state. -/
inductive Fault where
  /-- the event cannot happen in this state (the operation would block) -/
  | notReady
  /-- a run-time panic -/
  | panic
deriving DecidableEq

/-- Go `delete(broker.subscribers, sub)`. -/
def deleteSub (h : Nat) (subs : List Entry) : List Entry :=
  subs.filter (fun p => p.1.id != h)

/-- Go `broker.subscribers[sub]`. -/
def lookupSub (h : Nat) (subs : List Entry) : Option Entry :=
  subs.find? (fun p => p.1.id == h)

/-- Go `StopBroker` (lines 195-203): `none` is the panic of a send on the
closed stop channel; otherwise the new broker and the returned error (`none`
for `nil`).  When the slot of the stop channel is full the send blocks; this
function gives the outcome in which the deadline wins.  The other outcome of a
blocked call, in which the goroutine receives first and the call returns
`nil`, is `onStopHandOff`. -/
def StopBroker (broker : ChanBroker) : Option (ChanBroker × Option Error) :=
  if broker.stop.closed then none
  else if broker.stop.pending then some (broker, some .ErrStopBrokerTimeOut)
  else some ({ broker with stop := { broker.stop with pending := true } }, none)

/-- The sweep that ends the stop case (lines 156-162): `onTimerPush`, then
every subscriber whose list is empty is deleted and closed. -/
def drainSweep (w : World) : Except Fault World :=
  match onTimerPush w.broker with
  | none => .error .panic
  | some b =>
    match closeAll ((b.subscribers.filter (fun p => p.2.length == 0)).map Prod.fst) with
    | none => .error .panic
    | some cl =>
      .ok { w with
        broker := { b with subscribers := b.subscribers.filter (fun p => p.2.length != 0) }
        released := w.released ++ cl }

/-- The stop case of `run` (lines 144-162). -/
def onStop (w : World) : Except Fault World :=
  if w.broker.stop.pending then
    -- ok == true: close(broker.stop)
    if w.broker.stop.closed then .error .panic
    else drainSweep { w with broker := { w.broker with stop := { pending := false, closed := true } } }
  else if w.broker.stop.closed then
    -- ok == false
    if w.broker.cachenum = 0 then
      match closeAll (w.broker.subscribers.map Prod.fst) with
      | none => .error .panic
      | some cl =>
        .ok { w with
          broker := { w.broker with subscribers := [] }
          exited := true
          released := w.released ++ cl }
    else drainSweep w
  else .error .notReady

/-- The stop case of `run` (lines 144-162) when a `StopBroker` call is blocked
in its send on the full stop channel: the receive takes the buffered value,
the value of the blocked call moves into the freed slot and that call returns
`nil`; then `close(broker.stop)`, `onTimerPush` and the sweep run as usual.
The stop channel is left closed with a value in its slot, so that the next
receive has `ok == true` again.  Calls that are still blocked when the channel
is closed panic in their own goroutines. -/
def onStopHandOff (w : World) : Except Fault World :=
  if w.broker.stop.pending ∧ w.broker.stop.closed = false then
    drainSweep { w with broker := { w.broker with stop := { pending := true, closed := true } } }
  else .error .notReady

/-- A consumer receive on one channel: the oldest buffered value, if any. -/
def recvSub (sub : Subscriber) : Option Subscriber :=
  match sub.buf with
  | [] => none
  | v :: rest => some { sub with buf := rest, taken := sub.taken ++ [v] }

/-- A consumer starts a receive on one channel and blocks: the channel is
open and holds no value. -/
def parkSub (sub : Subscriber) : Option Subscriber :=
  if sub.closed = false ∧ sub.buf.length = 0 then some { sub with waiting := sub.waiting + 1 }
  else none

/-- A consumer blocked in a receive on one channel gives up. -/
def unparkSub (sub : Subscriber) : Option Subscriber :=
  if 0 < sub.waiting then some { sub with waiting := sub.waiting - 1 } else none

/-- A consumer operation `f` on the channel `h`, wherever it occurs in a
registry; `none` when the channel is not there or the operation cannot
happen. -/
def updateIn (f : Subscriber → Option Subscriber) (h : Nat) : List Entry → Option (List Entry)
  | [] => none
  | (sub, clist) :: rest =>
    if sub.id = h then
      match f sub with
      | none => none
      | some sub1 => some ((sub1, clist) :: rest)
    else
      match updateIn f h rest with
      | none => none
      | some rest1 => some ((sub, clist) :: rest1)

/-- Receive on the channel `h` of a registry. -/
def recvIn (h : Nat) (subs : List Entry) : Option (List Entry) := updateIn recvSub h subs

/-- Receive on a released (closed) channel `h`: a buffered value if there is
one, otherwise the receive returns at once with the zero value and the channel
is unchanged. -/
def recvReleased (h : Nat) (subs : List Subscriber) : List Subscriber :=
  subs.map (fun sub => if sub.id = h then (recvSub sub).getD sub else sub)

/-- One transition of the system. -/
def step (w : World) : Event → Except Fault World
  | .content c =>
    if w.exited then .error .notReady
    else
      match onContentPush w.broker c with
      | none => .error .panic
      | some b => .ok { w with broker := b }
  | .timer =>
    if w.exited ∨ w.broker.timerChan = false then .error .notReady
    else
      match onTimerPush w.broker with
      | none => .error .panic
      | some b => .ok { w with broker := b }
  | .regSub size =>
    if w.exited then .error .notReady
    else
      let sub : Subscriber := { id := w.fresh, cap := size, buf := [], closed := false, taken := [] }
      .ok { w with
        broker := { w.broker with subscribers := deleteSub sub.id w.broker.subscribers ++ [(sub, [])] }
        fresh := w.fresh + 1 }
  | .unRegSub h =>
    if w.exited then .error .notReady
    else
      match lookupSub h w.broker.subscribers with
      | none => .ok w
      | some (sub, _) =>
        match closeSub sub with
        | none => .error .panic
        | some sub1 =>
          .ok { w with
            broker := { w.broker with subscribers := deleteSub h w.broker.subscribers }
            released := w.released ++ [sub1] }
  | .stop =>
    if w.exited then .error .notReady else onStop w
  | .stopBroker =>
    match StopBroker w.broker with
    | none => .error .panic
    | some (b, _) => .ok { w with broker := b }
  | .recv h =>
    match lookupSub h w.broker.subscribers with
    | some _ =>
      match recvIn h w.broker.subscribers with
      | none => .error .notReady
      | some subs => .ok { w with broker := { w.broker with subscribers := subs } }
    | none =>
      if w.released.any (fun sub => sub.id == h) then
        .ok { w with released := recvReleased h w.released }
      else .error .notReady
  | .park h =>
    match updateIn parkSub h w.broker.subscribers with
    | none => .error .notReady
    | some subs => .ok { w with broker := { w.broker with subscribers := subs } }
  | .unpark h =>
    match updateIn unparkSub h w.broker.subscribers with
    | none => .error .notReady
    | some subs => .ok { w with broker := { w.broker with subscribers := subs } }
  | .stopHandOff =>
    if w.exited then .error .notReady else onStopHandOff w

/-- Runs a sequence of events from a state; stops at the first fault. -/
def run (w : World) : List Event → Except Fault World
  | [] => .ok w
  | e :: es =>
    match step w e with
    | .error f => .error f
    | .ok w1 => run w1 es

/-- States the system can be in. -/
def Reachable (w : World) : Prop :=
  ∃ es : List Event, run World.init es = .ok w

/-- Sum of the lengths of all backlog lists of a registry. -/
def backlogTotal (subs : List Entry) : Nat :=
  (subs.map (fun p => p.2.length)).sum


/-- Number of backlog elements one flush pass hands over: as many as there
are blocked receivers and free slots in the inbox. -/
def flushCount (sub : Subscriber) (clist : List Content) : Nat :=
  min clist.length (sub.waiting + (sub.cap - sub.buf.length))

/-- Number of backlog elements one flush pass hands straight to blocked
receivers. -/
def directCount (sub : Subscriber) (clist : List Content) : Nat :=
  min clist.length sub.waiting

/-- Closed form of one flush pass on a registry entry with an open inbox
(`flush_eq` proves that `flush` computes it): the first `directCount` elements
go to the blocked receivers, the following ones, up to `flushCount`, into the
buffer. -/
def flushEntry (p : Entry) : Entry :=
  ({ p.1 with
      buf := p.1.buf ++ (p.2.take (flushCount p.1 p.2)).drop (directCount p.1 p.2)
      taken := p.1.taken ++ p.2.take (directCount p.1 p.2)
      waiting := p.1.waiting - directCount p.1 p.2 },
    p.2.drop (flushCount p.1 p.2))

/-- Whether the whole backlog and one more message can be handed over. -/
def fits (p : Entry) : Prop :=
  p.2.length + 1 ≤ p.1.waiting + (p.1.cap - p.1.buf.length)

instance (p : Entry) : Decidable (fits p) := by unfold fits; infer_instance

/-- Closed form of the loop body of `onContentPush` on a registry entry with an
open inbox (`pushSub_eq` proves that `pushSub` computes it): when backlog and
message fit, the message is handed over behind the backlog; otherwise it is
appended to what the flush pass left of the backlog. -/
def pushEntry (content : Content) (p : Entry) : Entry :=
  if fits p then flushEntry (p.1, p.2 ++ [content])
  else ((flushEntry p).1, (flushEntry p).2 ++ [content])

/-- Every inbox of a registry is open. -/
def AllOpen (subs : List Entry) : Prop := ∀ p ∈ subs, p.1.closed = false

/-- Identities of the inboxes of a registry, in registry order. -/
def subIds (subs : List Entry) : List Nat := subs.map (fun p => p.1.id)

/-- Consumers are blocked only on empty inboxes of a registry. -/
def ParkedEmpty (subs : List Entry) : Prop := ∀ p ∈ subs, 0 < p.1.waiting → p.1.buf = []

/-- Consistency of a world: what `step` keeps true from `World.init` on. -/
structure WF (w : World) : Prop where
  /-- every registered inbox is open -/
  allOpen : AllOpen w.broker.subscribers
  /-- registered identities were produced by `make` -/
  idsLt : ∀ h ∈ subIds w.broker.subscribers, h < w.fresh
  /-- the registry is a map: no identity occurs twice -/
  nodup : (subIds w.broker.subscribers).Nodup
  /-- a consumer is blocked only on an empty inbox -/
  parkedEmpty : ParkedEmpty w.broker.subscribers
  /-- a positive counter has a timer -/
  timer : 0 < w.broker.cachenum → w.broker.timerChan = true
  /-- released inboxes are closed -/
  relClosed : ∀ sub ∈ w.released, sub.closed = true
  /-- released identities were produced by `make` -/
  relLt : ∀ sub ∈ w.released, sub.id < w.fresh
  /-- a released inbox is not in the registry -/
  relOut : ∀ sub ∈ w.released, sub.id ∉ subIds w.broker.subscribers
  /-- once the goroutine has returned the registry is empty, the counter is
  zero and the stop channel is closed -/
  afterExit : w.exited = true →
    w.broker.subscribers = [] ∧ w.broker.cachenum = 0 ∧ w.broker.stop.closed = true

/-- All `content` payloads of an event sequence, in order. -/
def published : List Event → List Content
  | [] => []
  | .content c :: es => c :: published es
  | _ :: es => published es

/-- The channel `sub` once `close(sub)` has run. -/
def closedCopy (sub : Subscriber) : Subscriber := { sub with closed := true }

/-- The broker after one pass of `onTimerPush` that leaves the counter at
`n`, in closed form. -/
def timerPushed (broker : ChanBroker) (n : Nat) : ChanBroker :=
  { broker with
    subscribers := broker.subscribers.map flushEntry
    cachenum := n
    timerChan := if n > 0 then true else false }

/-- The broker after `onContentPush` that leaves the counter at `n`, in
closed form. -/
def contentPushed (broker : ChanBroker) (content : Content) (n : Nat) : ChanBroker :=
  { broker with
    subscribers := broker.subscribers.map (pushEntry content)
    cachenum := n
    timerChan := if n > 0 ∧ broker.timerChan = false then true else broker.timerChan }

/-- The world after the sweep that ends the stop case, with the counter left
at `n`, in closed form. -/
def swept (w : World) (n : Nat) : World :=
  { w with
    broker := { timerPushed w.broker n with
      subscribers := (w.broker.subscribers.map flushEntry).filter (fun p => p.2.length != 0) }
    released := w.released ++
      (((w.broker.subscribers.map flushEntry).filter (fun p => p.2.length == 0)).map Prod.fst).map
        closedCopy }

/-- The world after `close(broker.stop)` has run on the received stop value. -/
def stopClosed (w : World) : World :=
  { w with broker := { w.broker with stop := { pending := false, closed := true } } }

/-- The world after the goroutine has closed every remaining inbox and
returned, in closed form. -/
def exitedWorld (w : World) : World :=
  { w with
    broker := { w.broker with subscribers := [] }
    exited := true
    released := w.released ++ (w.broker.subscribers.map Prod.fst).map closedCopy }

/-- Everything one subscriber has been given, oldest first: what its consumer
has received, then what waits in the inbox, then what waits in the backlog. -/
def stream (p : Entry) : List Content := p.1.taken ++ p.1.buf ++ p.2

/-- The state reached from `World.init` by a sequence of events (`World.init`
itself when the sequence faults). -/
def World.after (es : List Event) : World :=
  match run World.init es with
  | .ok w => w
  | .error _ => World.init

/-- Capacity of the `contents` channel (`make(chan Content, 16)`, line 46). -/
def contentsCap : Nat := 16

/-- The world of the broker goroutine together with the `contents` channel:
the values `PubContent` has sent and the goroutine has not yet taken, oldest
first. -/
structure System where
  world : World
  contents : List Content
deriving DecidableEq

/-- Go `PubContent` (lines 205-215), called before its deadline has passed:
the new system and the returned error (`none` for `nil`).  When `contents` has
room the send case runs.  When it is full the send blocks; this function gives
the outcome in which the deadline wins, which is the only one once the
goroutine has returned.  The other outcome of a blocked call, in which the
goroutine takes a value first and the call returns `nil`, is
`System.takeHandOff`.  Nothing else is consulted: the function does not look
at the broker goroutine. -/
def PubContent (s : System) (c : Content) : System × Option Error :=
  if s.contents.length < contentsCap then ({ s with contents := s.contents ++ [c] }, none)
  else (s, some .ErrPublishTimeOut)

/-- The broker goroutine takes the oldest value from `contents` and handles
it (`case content := <-broker.contents`). -/
def System.take (s : System) : Except Fault System :=
  match s.contents with
  | [] => .error .notReady
  | c :: rest =>
    match step s.world (.content c) with
    | .error f => .error f
    | .ok w => .ok { world := w, contents := rest }

/-- The broker goroutine takes the oldest value from the full `contents`
channel while a `PubContent c` call is blocked in its send: the value of the
blocked call takes the freed slot and that call returns `nil`. -/
def System.takeHandOff (s : System) (c : Content) : Except Fault System :=
  if s.contents.length < contentsCap then .error .notReady
  else
    match System.take s with
    | .error f => .error f
    | .ok s1 => .ok { s1 with contents := s1.contents ++ [c] }

/-- Identities of a list of inboxes. -/
def relIds (l : List Subscriber) : List Nat := l.map (fun sub => sub.id)

/-- The flush loop (lines 60-73, 98-111) once more, this time reporting
whether the guard `broker.cachenum > 0` was true at every hand-off that
succeeded, that is, whether no decrement was skipped. -/
def flushGuard : Subscriber → List Content → Nat → Bool
  | _, [], _ => true
  | sub, v :: rest, n =>
    match trySend sub v with
    | .sent sub1 => decide (n > 0) && flushGuard sub1 rest (if n > 0 then n - 1 else n)
    | .full => true
    | .panic => true

/-- The `range` loop of `onTimerPush`, reporting whether the guard was true
at every hand-off that succeeded. -/
def flushAllGuard : List Entry → Nat → Bool
  | [], _ => true
  | (sub, clist) :: rest, n =>
    flushGuard sub clist n &&
      match flush sub clist n with
      | none => true
      | some (_, _, n1) => flushAllGuard rest n1

/-- One round that leaves a stale count behind: a subscriber of capacity 0 is
registered (it gets the handle `h`), one message is published into its
backlog, and the subscriber is unregistered. -/
def staleRound (h : Nat) : List Event :=
  [.regSub 0, .content "x", .unRegSub h]

/-- Repeats `staleRound` `k` times, for the handles `h`, `h + 1`, ... -/
def staleRounds : Nat → Nat → List Event
  | _, 0 => []
  | h, k + 1 => staleRound h ++ staleRounds (h + 1) k

/-- What every consumer operation keeps of a channel: identity, capacity,
whether it is closed, the order of what was received and what is buffered,
and that consumers are blocked only on an empty channel. -/
def ConsumerOp (f : Subscriber → Option Subscriber) : Prop :=
  ∀ sub sub1, f sub = some sub1 →
    sub1.id = sub.id ∧ sub1.closed = sub.closed ∧ sub1.cap = sub.cap ∧
      sub1.taken ++ sub1.buf = sub.taken ++ sub.buf ∧
      ((0 < sub.waiting → sub.buf = []) → 0 < sub1.waiting → sub1.buf = [])

/-- The world after the stop value was received while a `StopBroker` call was
blocked, and `close(broker.stop)` has run: closed, with the value of that call
in the slot. -/
def stopHanded (w : World) : World :=
  { w with broker := { w.broker with stop := { pending := true, closed := true } } }

/-! ## The flush loop and the publish loop body, in closed form -/

theorem uintSize_pos : 0 < uintSize := by
  unfold uintSize
  positivity

theorem flush_eq (clist : List Content) : ∀ (sub : Subscriber) (n : Nat), sub.closed = false →
    flush sub clist n =
      some ((flushEntry (sub, clist)).1, (flushEntry (sub, clist)).2,
        n - flushCount sub clist) := by
  induction clist with
  | nil =>
    intro sub n _
    obtain ⟨id, cap, buf, closed, taken, waiting⟩ := sub
    simp [flush, flushEntry, flushCount, directCount]
  | cons v rest ih =>
    intro sub n hc
    obtain ⟨id, cap, buf, closed, taken, waiting⟩ := sub
    simp only at hc
    subst hc
    have hn : (if n > 0 then n - 1 else n) = n - 1 := by split <;> omega
    by_cases hw : 0 < waiting
    · have hk : flushCount ⟨id, cap, buf, false, taken, waiting⟩ (v :: rest)
          = flushCount ⟨id, cap, buf, false, taken ++ [v], waiting - 1⟩ rest + 1 := by
        simp only [flushCount, List.length_cons]
        omega
      have hd : directCount ⟨id, cap, buf, false, taken, waiting⟩ (v :: rest)
          = directCount ⟨id, cap, buf, false, taken ++ [v], waiting - 1⟩ rest + 1 := by
        simp only [directCount, List.length_cons]
        omega
      simp only [flush, trySend, hw, if_true, Bool.false_eq_true, if_false]
      rw [ih _ _ rfl, hn]
      simp only [flushEntry, hk, hd, List.take_succ_cons, List.drop_succ_cons, Nat.sub_sub,
        List.append_assoc, List.singleton_append, Nat.add_comm 1]
    · by_cases hlt : buf.length < cap
      · have hw0 : waiting = 0 := by omega
        subst hw0
        have hk : flushCount ⟨id, cap, buf, false, taken, 0⟩ (v :: rest)
            = flushCount ⟨id, cap, buf ++ [v], false, taken, 0⟩ rest + 1 := by
          simp only [flushCount, List.length_cons, List.length_append, List.length_nil]
          omega
        simp only [flush, trySend, hlt, if_true, Bool.false_eq_true, if_false,
          Nat.lt_irrefl]
        rw [ih _ _ rfl, hn]
        simp only [flushEntry, hk, directCount, Nat.min_zero, List.take_succ_cons,
          List.drop_succ_cons, List.drop_zero, List.take_zero, Nat.sub_sub, List.append_assoc,
          List.singleton_append, Nat.add_comm 1]
      · have hw0 : waiting = 0 := by omega
        subst hw0
        have hk : flushCount ⟨id, cap, buf, false, taken, 0⟩ (v :: rest) = 0 := by
          simp only [flushCount, List.length_cons]
          omega
        simp [flush, trySend, hlt, flushEntry, hk, directCount]

theorem flush_entry (p : Entry) (n : Nat) (hc : p.1.closed = false) :
    flush p.1 p.2 n = some ((flushEntry p).1, (flushEntry p).2, n - flushCount p.1 p.2) :=
  flush_eq p.2 p.1 n hc

theorem directCount_le (sub : Subscriber) (clist : List Content) :
    directCount sub clist ≤ flushCount sub clist := by
  simp only [directCount, flushCount]
  omega

theorem flushCount_le_length (sub : Subscriber) (clist : List Content) :
    flushCount sub clist ≤ clist.length := by
  simp only [flushCount]
  omega

theorem flushEntry_len (p : Entry) :
    (flushEntry p).2.length + flushCount p.1 p.2 = p.2.length := by
  have := flushCount_le_length p.1 p.2
  simp only [flushEntry, List.length_drop]
  omega

theorem flush_snoc (c : Content) (clist : List Content) : ∀ (sub : Subscriber) (n : Nat),
    flush sub (clist ++ [c]) n =
      match flush sub clist n with
      | none => none
      | some (sub1, [], n1) =>
        (match trySend sub1 c with
          | .sent sub2 => some (sub2, [], if n1 > 0 then n1 - 1 else n1)
          | .full => some (sub1, [c], n1)
          | .panic => none)
      | some (sub1, v :: rest, n1) => some (sub1, v :: rest ++ [c], n1) := by
  induction clist with
  | nil =>
    intro sub n
    simp only [List.nil_append, flush]
  | cons v rest ih =>
    intro sub n
    simp only [List.cons_append, flush]
    cases hs : trySend sub v with
    | sent sub1 => exact ih sub1 _
    | full => rfl
    | panic => rfl

theorem fits_iff_count (p : Entry) (c : Content) :
    fits p ↔ flushCount p.1 (p.2 ++ [c]) = p.2.length + 1 := by
  simp only [fits, flushCount, List.length_append, List.length_cons, List.length_nil]
  omega

theorem pushSub_eq (content : Content) (p : Entry) (n : Nat) (hc : p.1.closed = false) :
    pushSub content p.1 p.2 n =
      some ((pushEntry content p).1, (pushEntry content p).2,
        if fits p then n - p.2.length else (n - flushCount p.1 p.2 + 1) % uintSize) := by
  obtain ⟨sub, clist⟩ := p
  simp only at hc
  have hf := flush_eq clist sub n hc
  have hs := flush_snoc content clist sub n
  rw [flush_eq (clist ++ [content]) sub n hc, hf] at hs
  have hfit := fits_iff_count (sub, clist) content
  simp only at hfit
  have hlen := flushEntry_len (sub, clist)
  have hlen2 := flushEntry_len (sub, clist ++ [content])
  simp only [List.length_append, List.length_cons, List.length_nil] at hlen hlen2
  simp only [pushSub, hf, pushEntry]
  cases hr : (flushEntry (sub, clist)).2 with
  | nil =>
    rw [hr] at hs hlen
    simp only [List.length_nil, Nat.zero_add] at hlen
    simp only [List.length_nil, if_true]
    cases ht : trySend (flushEntry (sub, clist)).1 content with
    | sent sub2 =>
      simp only [ht, Option.some.injEq, Prod.mk.injEq] at hs
      have h2 : (flushEntry (sub, clist ++ [content])).2.length = 0 := by rw [hs.2.1]; rfl
      have hfits : fits (sub, clist) := hfit.2 (by omega)
      simp only [hfits, if_true, hs.1, hs.2.1, hlen]
    | full =>
      simp only [ht, Option.some.injEq, Prod.mk.injEq] at hs
      have h2 : (flushEntry (sub, clist ++ [content])).2.length = 1 := by rw [hs.2.1]; rfl
      have hfits : ¬ fits (sub, clist) := fun h => by
        have := hfit.1 h
        omega
      simp only [hfits, if_false, hr, List.nil_append]
    | panic =>
      simp only [ht] at hs
      cases hs
  | cons v rest =>
    rw [hr] at hlen
    simp only [List.length_cons] at hlen
    have hfits : ¬ fits (sub, clist) := fun h => by
      have h1 : flushCount sub clist = clist.length := by
        simp only [fits] at h
        simp only [flushCount]
        omega
      omega
    simp only [List.length_cons, Nat.add_one_ne_zero, if_false, hfits, hr]

/-! ## The two `range` loops over the registry -/

theorem flushAll_eq (subs : List Entry) : ∀ n : Nat, AllOpen subs →
    ∃ n1, flushAll subs n = some (subs.map flushEntry, n1) ∧
      (backlogTotal subs ≤ n → n1 + backlogTotal subs = n + backlogTotal (subs.map flushEntry)) := by
  induction subs with
  | nil => intro n _; exact ⟨n, rfl, fun _ => rfl⟩
  | cons p rest ih =>
    intro n ho
    have hp : p.1.closed = false := ho p (List.mem_cons_self _ _)
    have hr : AllOpen rest := fun q hq => ho q (List.mem_cons_of_mem _ hq)
    obtain ⟨n1, h1, h2⟩ := ih (n - flushCount p.1 p.2) hr
    refine ⟨n1, ?_, ?_⟩
    · obtain ⟨sub, clist⟩ := p
      have hf := flush_entry (sub, clist) n hp
      simp only at hf
      simp only [flushAll, hf, h1, List.map_cons]
    · intro hle
      have hl := flushEntry_len p
      simp only [backlogTotal, List.map_cons, List.sum_cons, List.map_map] at hle h2 ⊢
      omega

theorem pushEntry_len (content : Content) (p : Entry) :
    (pushEntry content p).2.length + flushCount p.1 p.2 =
      p.2.length + (if fits p then 0 else 1) := by
  have hl := flushEntry_len p
  have hl2 := flushEntry_len (p.1, p.2 ++ [content])
  have hfit := fits_iff_count p content
  simp only [List.length_append, List.length_cons, List.length_nil] at hl2
  unfold pushEntry
  by_cases hf : fits p
  · have h1 := hfit.1 hf
    have h2 : flushCount p.1 p.2 = p.2.length := by
      simp only [fits] at hf
      simp only [flushCount]
      omega
    simp only [hf, if_true]
    omega
  · simp only [hf, if_false, List.length_append, List.length_cons, List.length_nil]
    omega

theorem pushAll_eq (content : Content) (subs : List Entry) : ∀ n : Nat, AllOpen subs →
    ∃ n1, pushAll content subs n = some (subs.map (pushEntry content), n1) ∧
      (backlogTotal subs ≤ n → n + subs.length < uintSize →
        n1 + backlogTotal subs = n + backlogTotal (subs.map (pushEntry content))) := by
  induction subs with
  | nil => intro n _; exact ⟨n, rfl, fun _ _ => rfl⟩
  | cons p rest ih =>
    intro n ho
    have hp : p.1.closed = false := ho p (List.mem_cons_self _ _)
    have hr : AllOpen rest := fun q hq => ho q (List.mem_cons_of_mem _ hq)
    obtain ⟨n1, h1, h2⟩ := ih (if fits p then n - p.2.length
      else (n - flushCount p.1 p.2 + 1) % uintSize) hr
    refine ⟨n1, ?_, ?_⟩
    · obtain ⟨sub, clist⟩ := p
      have hf := pushSub_eq content (sub, clist) n hp
      simp only at hf
      simp only [pushAll, hf, h1, List.map_cons]
    · intro hle hsz
      have hl := flushEntry_len p
      have hlen := pushEntry_len content p
      have hk := flushCount_le_length p.1 p.2
      simp only [backlogTotal, List.map_cons, List.sum_cons, List.map_map,
        List.length_cons] at hle h2 hsz ⊢
      by_cases hf : fits p
      · have hk2 : flushCount p.1 p.2 = p.2.length := by
          simp only [fits] at hf
          simp only [flushCount]
          omega
        simp only [hf, if_true] at h2 hlen
        have := h2 (by omega) (by omega)
        omega
      · simp only [hf, if_false] at h2 hlen
        have hmod : (n - flushCount p.1 p.2 + 1) % uintSize = n - flushCount p.1 p.2 + 1 :=
          Nat.mod_eq_of_lt (by omega)
        rw [hmod] at h2
        have := h2 (by omega) (by omega)
        omega

/-! ## What the loops keep of an entry -/

theorem flushEntry_id (p : Entry) : (flushEntry p).1.id = p.1.id := rfl

theorem flushEntry_closed (p : Entry) : (flushEntry p).1.closed = p.1.closed := rfl

theorem flushEntry_cap (p : Entry) : (flushEntry p).1.cap = p.1.cap := rfl

theorem pushEntry_id (content : Content) (p : Entry) : (pushEntry content p).1.id = p.1.id := by
  unfold pushEntry; split <;> rfl

theorem pushEntry_closed (content : Content) (p : Entry) :
    (pushEntry content p).1.closed = p.1.closed := by
  unfold pushEntry; split <;> rfl

theorem flushEntry_parked (p : Entry) (h : 0 < p.1.waiting → p.1.buf = []) :
    0 < (flushEntry p).1.waiting → (flushEntry p).1.buf = [] := by
  intro hw
  simp only [flushEntry, directCount, flushCount] at hw ⊢
  have hpos : 0 < p.1.waiting := by omega
  rw [h hpos, List.nil_append, List.drop_eq_nil_iff, List.length_take]
  omega

theorem pushEntry_parked (content : Content) (p : Entry) (h : 0 < p.1.waiting → p.1.buf = []) :
    0 < (pushEntry content p).1.waiting → (pushEntry content p).1.buf = [] := by
  unfold pushEntry
  split
  · exact flushEntry_parked (p.1, p.2 ++ [content]) h
  · exact flushEntry_parked p h

theorem subIds_map (f : Entry → Entry) (hf : ∀ p, (f p).1.id = p.1.id) (subs : List Entry) :
    subIds (subs.map f) = subIds subs := by
  simp [subIds, List.map_map, Function.comp_def, hf]

theorem allOpen_map (f : Entry → Entry) (hf : ∀ p, (f p).1.closed = p.1.closed)
    (subs : List Entry) (h : AllOpen subs) : AllOpen (subs.map f) := by
  intro q hq
  obtain ⟨p, hp, rfl⟩ := List.mem_map.1 hq
  rw [hf]; exact h p hp

theorem parkedEmpty_map (f : Entry → Entry)
    (hf : ∀ p, (0 < p.1.waiting → p.1.buf = []) → 0 < (f p).1.waiting → (f p).1.buf = [])
    (subs : List Entry) (h : ParkedEmpty subs) : ParkedEmpty (subs.map f) := by
  intro q hq
  obtain ⟨p, hp, rfl⟩ := List.mem_map.1 hq
  exact hf p (h p hp)

theorem allOpen_filter (g : Entry → Bool) (subs : List Entry) (h : AllOpen subs) :
    AllOpen (subs.filter g) :=
  fun q hq => h q (List.mem_of_mem_filter hq)

theorem parkedEmpty_filter (g : Entry → Bool) (subs : List Entry) (h : ParkedEmpty subs) :
    ParkedEmpty (subs.filter g) :=
  fun q hq => h q (List.mem_of_mem_filter hq)

theorem subIds_filter_sublist (g : Entry → Bool) (subs : List Entry) :
    (subIds (subs.filter g)).Sublist (subIds subs) :=
  List.Sublist.map _ (List.filter_sublist subs)

theorem backlogTotal_filter_le (g : Entry → Bool) (subs : List Entry) :
    backlogTotal (subs.filter g) ≤ backlogTotal subs := by
  induction subs with
  | nil => simp [backlogTotal]
  | cons p rest ih =>
    simp only [backlogTotal, List.filter_cons, List.map_cons, List.sum_cons] at ih ⊢
    split
    · simp only [List.map_cons, List.sum_cons]; omega
    · omega

theorem backlogTotal_filter_nonempty (subs : List Entry) :
    backlogTotal (subs.filter (fun p => p.2.length != 0)) = backlogTotal subs := by
  induction subs with
  | nil => rfl
  | cons p rest ih =>
    simp only [backlogTotal, List.filter_cons, List.map_cons, List.sum_cons] at ih ⊢
    by_cases h : p.2.length = 0
    · simp [h, ih]
    · simp [h, ih]

/-! ## Closing and the consumer operations -/

theorem closeAll_eq (l : List Subscriber) (h : ∀ sub ∈ l, sub.closed = false) :
    closeAll l = some (l.map (fun sub => { sub with closed := true })) := by
  induction l with
  | nil => rfl
  | cons s rest ih =>
    have hs : s.closed = false := h s (List.mem_cons_self _ _)
    have hr := ih (fun q hq => h q (List.mem_cons_of_mem _ hq))
    simp [closeAll, closeSub, hs, hr]

theorem recvSub_op : ConsumerOp recvSub := by
  intro sub sub1 h
  unfold recvSub at h
  split at h
  · cases h
  · rename_i v rest hb
    cases h
    refine ⟨rfl, rfl, rfl, by simp [hb], ?_⟩
    intro hpe hw
    have := hpe hw
    rw [hb] at this
    cases this

theorem parkSub_op : ConsumerOp parkSub := by
  intro sub sub1 h
  unfold parkSub at h
  split at h
  · rename_i hc
    cases h
    exact ⟨rfl, rfl, rfl, rfl, fun _ _ => List.length_eq_zero.1 hc.2⟩
  · cases h

theorem unparkSub_op : ConsumerOp unparkSub := by
  intro sub sub1 h
  unfold unparkSub at h
  split at h
  · rename_i hw
    cases h
    exact ⟨rfl, rfl, rfl, rfl, fun hpe _ => hpe hw⟩
  · cases h

theorem updateIn_shape (f : Subscriber → Option Subscriber) (hf : ConsumerOp f) (h : Nat)
    (subs : List Entry) : ∀ subs1, updateIn f h subs = some subs1 →
    subIds subs1 = subIds subs ∧ (AllOpen subs → AllOpen subs1) ∧
      (ParkedEmpty subs → ParkedEmpty subs1) ∧
      subs1.map Prod.snd = subs.map Prod.snd := by
  induction subs with
  | nil => intro subs1 hr; cases hr
  | cons p rest ih =>
    intro subs1 hr
    obtain ⟨sub, clist⟩ := p
    simp only [updateIn] at hr
    split at hr
    · split at hr
      · cases hr
      · rename_i sub1 hs
        cases hr
        obtain ⟨hid, hcl, _, _, hpk⟩ := hf sub sub1 hs
        refine ⟨by simp [subIds, hid], ?_, ?_, by simp⟩
        · intro ho q hq
          rcases List.mem_cons.1 hq with rfl | hq
          · simpa [hcl] using ho (sub, clist) (List.mem_cons_self _ _)
          · exact ho q (List.mem_cons_of_mem _ hq)
        · intro ho q hq
          rcases List.mem_cons.1 hq with rfl | hq
          · exact hpk (ho (sub, clist) (List.mem_cons_self _ _))
          · exact ho q (List.mem_cons_of_mem _ hq)
    · split at hr
      · cases hr
      · rename_i rest1 hs
        cases hr
        obtain ⟨h1, h2, h3, h4⟩ := ih rest1 hs
        refine ⟨by simpa [subIds] using h1, ?_, ?_, by simp [h4]⟩
        · intro ho q hq
          rcases List.mem_cons.1 hq with rfl | hq
          · exact ho _ (List.mem_cons_self _ _)
          · exact h2 (fun r hr => ho r (List.mem_cons_of_mem _ hr)) q hq
        · intro ho q hq
          rcases List.mem_cons.1 hq with rfl | hq
          · exact ho _ (List.mem_cons_self _ _)
          · exact h3 (fun r hr => ho r (List.mem_cons_of_mem _ hr)) q hq

theorem backlogTotal_eq_of_snd {subs subs1 : List Entry}
    (h : subs1.map Prod.snd = subs.map Prod.snd) : backlogTotal subs1 = backlogTotal subs := by
  have : subs1.map (fun p => p.2.length) = subs.map (fun p => p.2.length) := by
    have := congrArg (List.map List.length) h
    simpa [List.map_map, Function.comp_def] using this
  simp [backlogTotal, this]

theorem recvReleased_shape (h : Nat) (l : List Subscriber) :
    (recvReleased h l).map (fun sub => (sub.id, sub.closed)) = l.map (fun sub => (sub.id, sub.closed)) := by
  induction l with
  | nil => rfl
  | cons s rest ih =>
    simp only [recvReleased, List.map_cons, List.map_map] at ih ⊢
    congr 1
    split
    · cases hs : recvSub s with
      | none => simp
      | some s1 =>
        obtain ⟨h1, h2, _⟩ := recvSub_op s s1 hs
        simp [h1, h2]
    · rfl

theorem subIds_deleteSub_sublist (h : Nat) (subs : List Entry) :
    (subIds (deleteSub h subs)).Sublist (subIds subs) :=
  subIds_filter_sublist _ subs

theorem deleteSub_fresh (h : Nat) (subs : List Entry) (hn : h ∉ subIds subs) :
    deleteSub h subs = subs := by
  unfold deleteSub
  rw [List.filter_eq_self]
  intro p hp
  have : p.1.id ≠ h := fun heq => hn (heq ▸ List.mem_map_of_mem (fun p => p.1.id) hp)
  simpa using this

theorem not_mem_subIds_deleteSub (h : Nat) (subs : List Entry) :
    h ∉ subIds (deleteSub h subs) := by
  intro hm
  obtain ⟨p, hp, hid⟩ := List.mem_map.1 hm
  have := (List.mem_filter.1 hp).2
  simp [hid] at this

/-! ## The handlers, in closed form, on a registry of open inboxes -/

theorem onTimerPush_eq (broker : ChanBroker) (ho : AllOpen broker.subscribers) :
    ∃ n, onTimerPush broker = some (timerPushed broker n) ∧
      (backlogTotal broker.subscribers ≤ broker.cachenum →
        n + backlogTotal broker.subscribers =
          broker.cachenum + backlogTotal (broker.subscribers.map flushEntry)) := by
  obtain ⟨n, h1, h2⟩ := flushAll_eq broker.subscribers broker.cachenum ho
  exact ⟨n, by simp [onTimerPush, h1, timerPushed], h2⟩

theorem onContentPush_eq (broker : ChanBroker) (content : Content)
    (ho : AllOpen broker.subscribers) :
    ∃ n, onContentPush broker content = some (contentPushed broker content n) ∧
      (backlogTotal broker.subscribers ≤ broker.cachenum →
        broker.cachenum + broker.subscribers.length < uintSize →
        n + backlogTotal broker.subscribers =
          broker.cachenum + backlogTotal (broker.subscribers.map (pushEntry content))) := by
  obtain ⟨n, h1, h2⟩ := pushAll_eq content broker.subscribers broker.cachenum ho
  exact ⟨n, by simp [onContentPush, h1, contentPushed], h2⟩

theorem drainSweep_eq (w : World) (ho : AllOpen w.broker.subscribers) :
    ∃ n, drainSweep w = .ok (swept w n) ∧
      (backlogTotal w.broker.subscribers ≤ w.broker.cachenum →
        n + backlogTotal w.broker.subscribers =
          w.broker.cachenum + backlogTotal (w.broker.subscribers.map flushEntry)) := by
  obtain ⟨n, h1, h2⟩ := onTimerPush_eq w.broker ho
  refine ⟨n, ?_, h2⟩
  have hcl : closeAll (((timerPushed w.broker n).subscribers.filter
      (fun p => p.2.length == 0)).map Prod.fst) =
      some ((((w.broker.subscribers.map flushEntry).filter
        (fun p => p.2.length == 0)).map Prod.fst).map closedCopy) := by
    apply closeAll_eq
    intro sub hs
    obtain ⟨p, hp, rfl⟩ := List.mem_map.1 hs
    exact allOpen_map flushEntry flushEntry_closed _ ho p (List.mem_of_mem_filter hp)
  simp only [drainSweep, h1, hcl]
  rfl

/-! ## Consistency is kept by every step -/

theorem WF_init : WF World.init := by
  constructor <;> simp [World.init, NewChanBroker, AllOpen, ParkedEmpty, subIds]

theorem id_not_mem_filter_of_nodup (l : List Entry) (hn : (subIds l).Nodup) (g : Entry → Bool)
    (p : Entry) (hp : p ∈ l) (hg : g p = false) : p.1.id ∉ subIds (l.filter g) := by
  intro hm
  obtain ⟨q, hq, hid⟩ := List.mem_map.1 hm
  have hq1 := List.mem_filter.1 hq
  have := List.inj_on_of_nodup_map hn hq1.1 hp hid
  subst this
  rw [hg] at hq1
  exact absurd hq1.2 (by simp)

theorem WF_swept (w : World) (hw : WF w) (hex : w.exited = false) (n : Nat) :
    WF (swept w n) := by
  have hids : subIds (w.broker.subscribers.map flushEntry) = subIds w.broker.subscribers :=
    subIds_map _ flushEntry_id _
  have hsub : (subIds ((w.broker.subscribers.map flushEntry).filter
      (fun p => p.2.length != 0))).Sublist (subIds w.broker.subscribers) :=
    hids ▸ subIds_filter_sublist _ _
  constructor
  · exact allOpen_filter _ _ (allOpen_map _ flushEntry_closed _ hw.allOpen)
  · intro h hh
    exact hw.idsLt h (hsub.subset hh)
  · exact hsub.nodup hw.nodup
  · exact parkedEmpty_filter _ _ (parkedEmpty_map _ flushEntry_parked _ hw.parkedEmpty)
  · intro hpos
    simp only [swept, timerPushed] at hpos ⊢
    simp [hpos]
  · intro sub hs
    rcases List.mem_append.1 hs with hs | hs
    · exact hw.relClosed sub hs
    · obtain ⟨s, _, rfl⟩ := List.mem_map.1 hs
      rfl
  · intro sub hs
    rcases List.mem_append.1 hs with hs | hs
    · exact hw.relLt sub hs
    · obtain ⟨s, hs1, rfl⟩ := List.mem_map.1 hs
      obtain ⟨p, hp, rfl⟩ := List.mem_map.1 hs1
      apply hw.idsLt
      rw [← hids]
      exact List.mem_map_of_mem (fun p => p.1.id) (List.mem_of_mem_filter hp)
  · intro sub hs
    rcases List.mem_append.1 hs with hs | hs
    · exact fun hm => hw.relOut sub hs (hsub.subset hm)
    · obtain ⟨s, hs1, rfl⟩ := List.mem_map.1 hs
      obtain ⟨p, hp, rfl⟩ := List.mem_map.1 hs1
      have hp1 := List.mem_filter.1 hp
      apply id_not_mem_filter_of_nodup (w.broker.subscribers.map flushEntry)
        (hids ▸ hw.nodup) _ p hp1.1
      have := hp1.2
      simp only [beq_iff_eq] at this
      simp [this]
  · intro he
    simp only [swept] at he
    rw [hex] at he
    cases he

theorem WF_content (w : World) (hw : WF w) (hex : w.exited = false) (c : Content) (n : Nat) :
    WF { w with broker := contentPushed w.broker c n } := by
  have hids : subIds (w.broker.subscribers.map (pushEntry c)) = subIds w.broker.subscribers :=
    subIds_map _ (pushEntry_id c) _
  constructor
  · exact allOpen_map _ (pushEntry_closed c) _ hw.allOpen
  · intro h hh
    exact hw.idsLt h (hids ▸ hh)
  · exact hids ▸ hw.nodup
  · exact parkedEmpty_map _ (pushEntry_parked c) _ hw.parkedEmpty
  · intro hpos
    simp only [contentPushed] at hpos ⊢
    cases htc : w.broker.timerChan <;> simp [hpos]
  · exact hw.relClosed
  · exact hw.relLt
  · intro sub hs hm
    exact hw.relOut sub hs (hids ▸ hm)
  · intro he
    simp only [hex] at he
    cases he

theorem WF_timer (w : World) (hw : WF w) (hex : w.exited = false) (n : Nat) :
    WF { w with broker := timerPushed w.broker n } := by
  have hids : subIds (w.broker.subscribers.map flushEntry) = subIds w.broker.subscribers :=
    subIds_map _ flushEntry_id _
  constructor
  · exact allOpen_map _ flushEntry_closed _ hw.allOpen
  · intro h hh
    exact hw.idsLt h (hids ▸ hh)
  · exact hids ▸ hw.nodup
  · exact parkedEmpty_map _ flushEntry_parked _ hw.parkedEmpty
  · intro hpos
    simp only [timerPushed] at hpos ⊢
    simp [hpos]
  · exact hw.relClosed
  · exact hw.relLt
  · intro sub hs hm
    exact hw.relOut sub hs (hids ▸ hm)
  · intro he
    simp only [hex] at he
    cases he

theorem fresh_not_mem (w : World) (hw : WF w) : w.fresh ∉ subIds w.broker.subscribers :=
  fun hm => Nat.lt_irrefl _ (hw.idsLt _ hm)

theorem regSub_eq (w : World) (hw : WF w) (hex : w.exited = false) (size : Nat) :
    step w (.regSub size) = .ok { w with
      broker := { w.broker with subscribers := w.broker.subscribers ++
        [({ id := w.fresh, cap := size, buf := [], closed := false, taken := [] }, [])] }
      fresh := w.fresh + 1 } := by
  simp [step, hex, deleteSub_fresh _ _ (fresh_not_mem w hw)]

theorem WF_regSub (w : World) (hw : WF w) (hex : w.exited = false) (size : Nat) :
    WF { w with
      broker := { w.broker with subscribers := w.broker.subscribers ++
        [({ id := w.fresh, cap := size, buf := [], closed := false, taken := [] }, [])] }
      fresh := w.fresh + 1 } := by
  constructor
  · intro p hp
    rcases List.mem_append.1 hp with hp | hp
    · exact hw.allOpen p hp
    · simp only [List.mem_singleton] at hp; subst hp; rfl
  · intro h hh
    simp only [subIds, List.map_append, List.map_cons, List.map_nil, List.mem_append,
      List.mem_singleton] at hh
    rcases hh with hh | hh
    · exact Nat.lt_succ_of_lt (hw.idsLt h hh)
    · subst hh; exact Nat.lt_succ_self _
  · simp only [subIds, List.map_append, List.map_cons, List.map_nil]
    rw [List.nodup_append]
    refine ⟨hw.nodup, List.nodup_singleton _, ?_⟩
    intro a ha hb
    simp only [List.mem_singleton] at hb
    subst hb
    exact fresh_not_mem w hw ha
  · intro p hp
    rcases List.mem_append.1 hp with hp | hp
    · exact hw.parkedEmpty p hp
    · simp only [List.mem_singleton] at hp; subst hp; intro _; rfl
  · exact hw.timer
  · exact hw.relClosed
  · intro sub hs
    exact Nat.lt_succ_of_lt (hw.relLt sub hs)
  · intro sub hs hm
    simp only [subIds, List.map_append, List.map_cons, List.map_nil, List.mem_append,
      List.mem_singleton] at hm
    rcases hm with hm | hm
    · exact hw.relOut sub hs hm
    · have := hw.relLt sub hs
      omega
  · intro he
    simp only [hex] at he
    cases he

theorem lookupSub_some {h : Nat} {subs : List Entry} {p : Entry} (hl : lookupSub h subs = some p) :
    p ∈ subs ∧ p.1.id = h := by
  refine ⟨List.mem_of_find?_eq_some hl, ?_⟩
  have := List.find?_some hl
  simpa using this

theorem lookupSub_none {h : Nat} {subs : List Entry} :
    lookupSub h subs = none ↔ h ∉ subIds subs := by
  simp only [lookupSub, List.find?_eq_none, subIds, List.mem_map, not_exists, not_and]
  constructor
  · intro hx p hp hid
    have := hx p hp
    simp [hid] at this
  · intro hx p hp
    have := hx p hp
    simpa using this

theorem unRegSub_eq (w : World) (hw : WF w) (hex : w.exited = false) (h : Nat) (p : Entry)
    (hl : lookupSub h w.broker.subscribers = some p) :
    step w (.unRegSub h) = .ok { w with
      broker := { w.broker with subscribers := deleteSub h w.broker.subscribers }
      released := w.released ++ [closedCopy p.1] } := by
  have hop := hw.allOpen p (lookupSub_some hl).1
  obtain ⟨sub, clist⟩ := p
  simp only at hop
  simp [step, hex, hl, closeSub, hop, closedCopy]

theorem WF_unRegSub (w : World) (hw : WF w) (hex : w.exited = false) (h : Nat) (p : Entry)
    (hl : lookupSub h w.broker.subscribers = some p) :
    WF { w with
      broker := { w.broker with subscribers := deleteSub h w.broker.subscribers }
      released := w.released ++ [closedCopy p.1] } := by
  obtain ⟨hmem, hid⟩ := lookupSub_some hl
  have hsub := subIds_deleteSub_sublist h w.broker.subscribers
  constructor
  · exact allOpen_filter _ _ hw.allOpen
  · intro x hx
    exact hw.idsLt x (hsub.subset hx)
  · exact hsub.nodup hw.nodup
  · exact parkedEmpty_filter _ _ hw.parkedEmpty
  · exact hw.timer
  · intro sub hs
    rcases List.mem_append.1 hs with hs | hs
    · exact hw.relClosed sub hs
    · simp only [List.mem_singleton] at hs; subst hs; rfl
  · intro sub hs
    rcases List.mem_append.1 hs with hs | hs
    · exact hw.relLt sub hs
    · simp only [List.mem_singleton] at hs; subst hs
      exact hw.idsLt _ (List.mem_map_of_mem (fun p => p.1.id) hmem)
  · intro sub hs hm
    rcases List.mem_append.1 hs with hs | hs
    · exact hw.relOut sub hs (hsub.subset hm)
    · simp only [List.mem_singleton] at hs; subst hs
      have : (closedCopy p.1).id = h := hid
      rw [this] at hm
      exact not_mem_subIds_deleteSub h _ hm
  · intro he
    simp only [hex] at he
    cases he

theorem stopBroker_ok (w w1 : World) (hs : step w .stopBroker = .ok w1) :
    w.broker.stop.closed = false ∧
      (w1 = w ∨ w1 = { w with broker := { w.broker with stop := { w.broker.stop with pending := true } } }) := by
  simp only [step, StopBroker] at hs
  split at hs
  · cases hs
  · rename_i b e hb
    split at hb
    · cases hb
    · rename_i hcl
      split at hb
      · cases hb; cases hs; exact ⟨by simpa using hcl, Or.inl rfl⟩
      · cases hb; cases hs; exact ⟨by simpa using hcl, Or.inr rfl⟩

theorem WF_stopBroker (w w1 : World) (hw : WF w) (hs : step w .stopBroker = .ok w1) : WF w1 := by
  obtain ⟨hcl, rfl | rfl⟩ := stopBroker_ok w w1 hs
  · exact hw
  · refine { hw with afterExit := fun he => ?_ }
    have := (hw.afterExit he).2.2
    rw [hcl] at this
    cases this

theorem WF_update (w : World) (hw : WF w) (f : Subscriber → Option Subscriber)
    (hf : ConsumerOp f) (h : Nat) (subs : List Entry)
    (hr : updateIn f h w.broker.subscribers = some subs) :
    WF { w with broker := { w.broker with subscribers := subs } } := by
  obtain ⟨h1, h2, h3, _⟩ := updateIn_shape f hf h _ _ hr
  constructor
  · exact h2 hw.allOpen
  · intro x hx
    exact hw.idsLt x (h1 ▸ hx)
  · exact h1 ▸ hw.nodup
  · exact h3 hw.parkedEmpty
  · exact hw.timer
  · exact hw.relClosed
  · exact hw.relLt
  · intro sub hsub hm
    exact hw.relOut sub hsub (h1 ▸ hm)
  · intro he
    have := hw.afterExit he
    simp only [this.1] at hr
    cases hr

theorem WF_recv (w w1 : World) (hw : WF w) (h : Nat) (hs : step w (.recv h) = .ok w1) : WF w1 := by
  simp only [step] at hs
  split at hs
  · split at hs
    · cases hs
    · rename_i subs hr
      cases hs
      exact WF_update w hw recvSub recvSub_op h subs hr
  · split at hs
    · cases hs
      have hrel : ∀ sub ∈ recvReleased h w.released,
          ∃ s ∈ w.released, s.id = sub.id ∧ s.closed = sub.closed := by
        intro sub hsub
        have hm : (sub.id, sub.closed) ∈
            (recvReleased h w.released).map (fun sub => (sub.id, sub.closed)) :=
          List.mem_map_of_mem (fun sub => (sub.id, sub.closed)) hsub
        rw [recvReleased_shape] at hm
        obtain ⟨s, hs1, hs2⟩ := List.mem_map.1 hm
        simp only [Prod.mk.injEq] at hs2
        exact ⟨s, hs1, hs2.1, hs2.2⟩
      constructor
      · exact hw.allOpen
      · exact hw.idsLt
      · exact hw.nodup
      · exact hw.parkedEmpty
      · exact hw.timer
      · intro sub hsub
        obtain ⟨s, hs1, _, hs3⟩ := hrel sub hsub
        exact hs3 ▸ hw.relClosed s hs1
      · intro sub hsub
        obtain ⟨s, hs1, hs2, _⟩ := hrel sub hsub
        exact hs2 ▸ hw.relLt s hs1
      · intro sub hsub
        obtain ⟨s, hs1, hs2, _⟩ := hrel sub hsub
        exact hs2 ▸ hw.relOut s hs1
      · exact hw.afterExit
    · cases hs

theorem onStop_initial (w : World) (ho : AllOpen w.broker.subscribers)
    (hp : w.broker.stop.pending = true) (hc : w.broker.stop.closed = false) :
    ∃ n, onStop w = .ok (swept (stopClosed w) n) ∧
      (backlogTotal w.broker.subscribers ≤ w.broker.cachenum →
        n + backlogTotal w.broker.subscribers =
          w.broker.cachenum + backlogTotal (w.broker.subscribers.map flushEntry)) := by
  obtain ⟨n, h1, h2⟩ := drainSweep_eq (stopClosed w) ho
  refine ⟨n, ?_, h2⟩
  simp only [onStop, hp, hc, if_true, Bool.false_eq_true, if_false]
  exact h1

theorem onStop_twice (w : World) (hp : w.broker.stop.pending = true)
    (hc : w.broker.stop.closed = true) : onStop w = .error .panic := by
  simp [onStop, hp, hc]

theorem onStop_exit (w : World) (ho : AllOpen w.broker.subscribers)
    (hp : w.broker.stop.pending = false)
    (hc : w.broker.stop.closed = true) (hz : w.broker.cachenum = 0) :
    onStop w = .ok (exitedWorld w) := by
  have hcl : closeAll (w.broker.subscribers.map Prod.fst) =
      some ((w.broker.subscribers.map Prod.fst).map closedCopy) := by
    apply closeAll_eq
    intro sub hs
    obtain ⟨p, hp, rfl⟩ := List.mem_map.1 hs
    exact ho p hp
  simp only [onStop, hp, hc, if_true, Bool.false_eq_true, if_false, hcl]
  rw [if_pos hz]
  rfl

theorem onStop_sweep (w : World) (ho : AllOpen w.broker.subscribers)
    (hp : w.broker.stop.pending = false)
    (hc : w.broker.stop.closed = true) (hz : w.broker.cachenum ≠ 0) :
    ∃ n, onStop w = .ok (swept w n) ∧
      (backlogTotal w.broker.subscribers ≤ w.broker.cachenum →
        n + backlogTotal w.broker.subscribers =
          w.broker.cachenum + backlogTotal (w.broker.subscribers.map flushEntry)) := by
  obtain ⟨n, h1, h2⟩ := drainSweep_eq w ho
  refine ⟨n, ?_, h2⟩
  simp only [onStop, hp, hc, hz, if_true, Bool.false_eq_true, if_false]
  exact h1

theorem onStopHandOff_eq (w : World) (ho : AllOpen w.broker.subscribers)
    (hp : w.broker.stop.pending = true) (hc : w.broker.stop.closed = false) :
    ∃ n, onStopHandOff w = .ok (swept (stopHanded w) n) := by
  obtain ⟨n, h1, _⟩ := drainSweep_eq (stopHanded w) ho
  refine ⟨n, ?_⟩
  simp only [onStopHandOff, hp, hc, and_self, if_true]
  exact h1

theorem WF_stopClosed (w : World) (hw : WF w) : WF (stopClosed w) :=
  { hw with
    afterExit := fun he => ⟨(hw.afterExit he).1, (hw.afterExit he).2.1, rfl⟩ }

theorem WF_stopHanded (w : World) (hw : WF w) : WF (stopHanded w) :=
  { hw with
    afterExit := fun he => ⟨(hw.afterExit he).1, (hw.afterExit he).2.1, rfl⟩ }

theorem WF_exitedWorld (w : World) (hw : WF w) (hc : w.broker.stop.closed = true)
    (hz : w.broker.cachenum = 0) : WF (exitedWorld w) := by
  constructor
  · intro p hp; simp [exitedWorld] at hp
  · intro h hh; simp [exitedWorld, subIds] at hh
  · simp [exitedWorld, subIds]
  · intro p hp; simp [exitedWorld] at hp
  · intro hpos
    simp only [exitedWorld, hz] at hpos
    omega
  · intro sub hs
    rcases List.mem_append.1 hs with hs | hs
    · exact hw.relClosed sub hs
    · obtain ⟨s, _, rfl⟩ := List.mem_map.1 hs
      rfl
  · intro sub hs
    rcases List.mem_append.1 hs with hs | hs
    · exact hw.relLt sub hs
    · obtain ⟨s, hs1, rfl⟩ := List.mem_map.1 hs
      obtain ⟨p, hp, rfl⟩ := List.mem_map.1 hs1
      exact hw.idsLt _ (List.mem_map_of_mem (fun p => p.1.id) hp)
  · intro sub _ hm
    simp [exitedWorld, subIds] at hm
  · intro _
    exact ⟨rfl, hz, hc⟩

/-! ## Each event, read backwards from a successful step -/

theorem step_content_inv (w w1 : World) (c : Content) (hw : WF w)
    (hs : step w (.content c) = .ok w1) :
    w.exited = false ∧ ∃ n, w1 = { w with broker := contentPushed w.broker c n } := by
  simp only [step] at hs
  split at hs
  · cases hs
  · rename_i hex
    obtain ⟨n, h1, _⟩ := onContentPush_eq w.broker c hw.allOpen
    rw [h1] at hs
    cases hs
    exact ⟨by simpa using hex, n, rfl⟩

theorem step_timer_inv (w w1 : World) (hw : WF w) (hs : step w .timer = .ok w1) :
    w.exited = false ∧ w.broker.timerChan = true ∧
      ∃ n, w1 = { w with broker := timerPushed w.broker n } := by
  simp only [step] at hs
  split at hs
  · cases hs
  · rename_i hex
    obtain ⟨n, h1, _⟩ := onTimerPush_eq w.broker hw.allOpen
    rw [h1] at hs
    cases hs
    simp only [not_or, Bool.not_eq_true, Bool.not_eq_false] at hex
    exact ⟨hex.1, hex.2, n, rfl⟩

theorem step_regSub_inv (w w1 : World) (size : Nat) (hw : WF w)
    (hs : step w (.regSub size) = .ok w1) :
    w.exited = false ∧ w1 = { w with
      broker := { w.broker with subscribers := w.broker.subscribers ++
        [({ id := w.fresh, cap := size, buf := [], closed := false, taken := [] }, [])] }
      fresh := w.fresh + 1 } := by
  by_cases hex : w.exited = true
  · simp [step, hex] at hs
  · have hex : w.exited = false := by simpa using hex
    rw [regSub_eq w hw hex] at hs
    cases hs
    exact ⟨hex, rfl⟩

theorem step_unRegSub_inv (w w1 : World) (h : Nat) (hw : WF w)
    (hs : step w (.unRegSub h) = .ok w1) :
    w.exited = false ∧
      ((lookupSub h w.broker.subscribers = none ∧ w1 = w) ∨
        ∃ p, lookupSub h w.broker.subscribers = some p ∧ w1 = { w with
          broker := { w.broker with subscribers := deleteSub h w.broker.subscribers }
          released := w.released ++ [closedCopy p.1] }) := by
  by_cases hex : w.exited = true
  · simp [step, hex] at hs
  · have hex : w.exited = false := by simpa using hex
    refine ⟨hex, ?_⟩
    cases hl : lookupSub h w.broker.subscribers with
    | none =>
      simp only [step, hex, hl, Bool.false_eq_true, if_false] at hs
      cases hs
      exact Or.inl ⟨rfl, rfl⟩
    | some p =>
      rw [unRegSub_eq w hw hex h p hl] at hs
      cases hs
      exact Or.inr ⟨p, rfl, rfl⟩

theorem step_stop_eq (w : World) (hex : w.exited = false) : step w .stop = onStop w := by
  simp [step, hex]

theorem step_stop_inv (w w1 : World) (hw : WF w) (hs : step w .stop = .ok w1) :
    w.exited = false ∧
      ((w.broker.stop.pending = true ∧ w.broker.stop.closed = false ∧
          ∃ n, w1 = swept (stopClosed w) n) ∨
       (w.broker.stop.pending = false ∧ w.broker.stop.closed = true ∧
          w.broker.cachenum = 0 ∧ w1 = exitedWorld w) ∨
       (w.broker.stop.pending = false ∧ w.broker.stop.closed = true ∧
          w.broker.cachenum ≠ 0 ∧ ∃ n, w1 = swept w n)) := by
  simp only [step] at hs
  split at hs
  · cases hs
  · rename_i hex
    have hex : w.exited = false := by simpa using hex
    refine ⟨hex, ?_⟩
    by_cases hp : w.broker.stop.pending = true
    · by_cases hc : w.broker.stop.closed = true
      · rw [onStop_twice w hp hc] at hs
        cases hs
      · have hc : w.broker.stop.closed = false := by simpa using hc
        obtain ⟨n, h1, _⟩ := onStop_initial w hw.allOpen hp hc
        rw [h1] at hs
        cases hs
        exact Or.inl ⟨hp, hc, n, rfl⟩
    · have hp : w.broker.stop.pending = false := by simpa using hp
      by_cases hc : w.broker.stop.closed = true
      · by_cases hz : w.broker.cachenum = 0
        · rw [onStop_exit w hw.allOpen hp hc hz] at hs
          cases hs
          exact Or.inr (Or.inl ⟨hp, hc, hz, rfl⟩)
        · obtain ⟨n, h1, _⟩ := onStop_sweep w hw.allOpen hp hc hz
          rw [h1] at hs
          cases hs
          exact Or.inr (Or.inr ⟨hp, hc, hz, n, rfl⟩)
      · simp [onStop, hp, hc] at hs

theorem step_stopHandOff_inv (w w1 : World) (hw : WF w) (hs : step w .stopHandOff = .ok w1) :
    w.exited = false ∧ w.broker.stop.pending = true ∧ w.broker.stop.closed = false ∧
      ∃ n, w1 = swept (stopHanded w) n := by
  simp only [step] at hs
  split at hs
  · cases hs
  · rename_i hex
    have hex : w.exited = false := by simpa using hex
    by_cases hpc : w.broker.stop.pending = true ∧ w.broker.stop.closed = false
    · obtain ⟨n, h1⟩ := onStopHandOff_eq w hw.allOpen hpc.1 hpc.2
      rw [h1] at hs
      cases hs
      exact ⟨hex, hpc.1, hpc.2, n, rfl⟩
    · simp [onStopHandOff, hpc] at hs

theorem step_recv_inv (w w1 : World) (h : Nat) (hs : step w (.recv h) = .ok w1) :
    (∃ subs, updateIn recvSub h w.broker.subscribers = some subs ∧
        w1 = { w with broker := { w.broker with subscribers := subs } }) ∨
      w1 = { w with released := recvReleased h w.released } := by
  simp only [step] at hs
  split at hs
  · split at hs
    · cases hs
    · rename_i subs hr
      cases hs
      exact Or.inl ⟨subs, hr, rfl⟩
  · split at hs
    · cases hs; exact Or.inr rfl
    · cases hs

theorem step_park_inv (w w1 : World) (h : Nat) (hs : step w (.park h) = .ok w1) :
    ∃ subs, updateIn parkSub h w.broker.subscribers = some subs ∧
      w1 = { w with broker := { w.broker with subscribers := subs } } := by
  simp only [step] at hs
  split at hs
  · cases hs
  · rename_i subs hr
    cases hs
    exact ⟨subs, hr, rfl⟩

theorem step_unpark_inv (w w1 : World) (h : Nat) (hs : step w (.unpark h) = .ok w1) :
    ∃ subs, updateIn unparkSub h w.broker.subscribers = some subs ∧
      w1 = { w with broker := { w.broker with subscribers := subs } } := by
  simp only [step] at hs
  split at hs
  · cases hs
  · rename_i subs hr
    cases hs
    exact ⟨subs, hr, rfl⟩

/-- A step that changes the registry by a consumer operation, or not at all:
the events of the consumers. -/
theorem step_consumer_inv (w w1 : World) (e : Event)
    (he : (∃ h, e = .recv h) ∨ (∃ h, e = .park h) ∨ (∃ h, e = .unpark h))
    (hs : step w e = .ok w1) :
    (∃ f h subs, ConsumerOp f ∧ updateIn f h w.broker.subscribers = some subs ∧
        w1 = { w with broker := { w.broker with subscribers := subs } }) ∨
      (∃ h, w1 = { w with released := recvReleased h w.released }) := by
  rcases he with ⟨h, rfl⟩ | ⟨h, rfl⟩ | ⟨h, rfl⟩
  · obtain ⟨subs, hr, rfl⟩ | rfl := step_recv_inv w w1 h hs
    · exact Or.inl ⟨recvSub, h, subs, recvSub_op, hr, rfl⟩
    · exact Or.inr ⟨h, rfl⟩
  · obtain ⟨subs, hr, rfl⟩ := step_park_inv w w1 h hs
    exact Or.inl ⟨parkSub, h, subs, parkSub_op, hr, rfl⟩
  · obtain ⟨subs, hr, rfl⟩ := step_unpark_inv w w1 h hs
    exact Or.inl ⟨unparkSub, h, subs, unparkSub_op, hr, rfl⟩

theorem WF_step (w w1 : World) (e : Event) (hw : WF w) (hs : step w e = .ok w1) : WF w1 := by
  cases e with
  | content c =>
    obtain ⟨hex, n, rfl⟩ := step_content_inv w w1 c hw hs
    exact WF_content w hw hex c n
  | timer =>
    obtain ⟨hex, _, n, rfl⟩ := step_timer_inv w w1 hw hs
    exact WF_timer w hw hex n
  | regSub size =>
    obtain ⟨hex, rfl⟩ := step_regSub_inv w w1 size hw hs
    exact WF_regSub w hw hex size
  | unRegSub h =>
    obtain ⟨hex, ⟨_, rfl⟩ | ⟨p, hl, rfl⟩⟩ := step_unRegSub_inv w w1 h hw hs
    · exact hw
    · exact WF_unRegSub w hw hex h p hl
  | stop =>
    obtain ⟨hex, ⟨_, _, n, rfl⟩ | ⟨_, hc, hz, rfl⟩ | ⟨_, _, _, n, rfl⟩⟩ := step_stop_inv w w1 hw hs
    · exact WF_swept _ (WF_stopClosed w hw) hex n
    · exact WF_exitedWorld w hw hc hz
    · exact WF_swept _ hw hex n
  | stopBroker => exact WF_stopBroker w w1 hw hs
  | recv h => exact WF_recv w w1 hw h hs
  | park h =>
    obtain ⟨subs, hr, rfl⟩ := step_park_inv w w1 h hs
    exact WF_update w hw parkSub parkSub_op h subs hr
  | unpark h =>
    obtain ⟨subs, hr, rfl⟩ := step_unpark_inv w w1 h hs
    exact WF_update w hw unparkSub unparkSub_op h subs hr
  | stopHandOff =>
    obtain ⟨hex, _, _, n, rfl⟩ := step_stopHandOff_inv w w1 hw hs
    exact WF_swept _ (WF_stopHanded w hw) hex n

theorem WF_run (es : List Event) : ∀ (w w1 : World), WF w → run w es = .ok w1 → WF w1 := by
  induction es with
  | nil => intro w w1 hw hr; cases hr; exact hw
  | cons e es ih =>
    intro w w1 hw hr
    simp only [run] at hr
    split at hr
    · cases hr
    · rename_i w2 hs
      exact ih w2 w1 (WF_step w w2 e hw hs) hr

theorem Reachable.wf {w : World} (h : Reachable w) : WF w := by
  obtain ⟨es, hr⟩ := h
  exact WF_run es _ _ WF_init hr

/-! ## Looking a handle up before and after a step -/

theorem lookupSub_map (h : Nat) (f : Entry → Entry) (hf : ∀ p, (f p).1.id = p.1.id)
    (subs : List Entry) : lookupSub h (subs.map f) = (lookupSub h subs).map f := by
  induction subs with
  | nil => rfl
  | cons p rest ih =>
    simp only [lookupSub, List.map_cons, List.find?_cons, hf] at ih ⊢
    split
    · rfl
    · exact ih

theorem lookupSub_of_mem (subs : List Entry) (hn : (subIds subs).Nodup) (q : Entry)
    (hq : q ∈ subs) : lookupSub q.1.id subs = some q := by
  cases hl : lookupSub q.1.id subs with
  | none =>
    exact absurd (List.mem_map_of_mem (fun p => p.1.id) hq) (lookupSub_none.1 hl)
  | some p =>
    obtain ⟨hp, hid⟩ := lookupSub_some hl
    rw [List.inj_on_of_nodup_map hn hp hq hid]

theorem lookupSub_filter (h : Nat) (subs : List Entry) (hn : (subIds subs).Nodup)
    (g : Entry → Bool) (p : Entry) (hl : lookupSub h subs = some p) :
    lookupSub h (subs.filter g) = if g p then some p else none := by
  obtain ⟨hp, hid⟩ := lookupSub_some hl
  by_cases hg : g p = true
  · rw [if_pos hg, ← hid]
    exact lookupSub_of_mem _ ((subIds_filter_sublist g subs).nodup hn) p
      (List.mem_filter.2 ⟨hp, hg⟩)
  · rw [if_neg hg, lookupSub_none, ← hid]
    exact id_not_mem_filter_of_nodup subs hn g p hp (by simpa using hg)

theorem lookupSub_append_left (h : Nat) (subs more : List Entry) (p : Entry)
    (hl : lookupSub h subs = some p) : lookupSub h (subs ++ more) = some p := by
  simp only [lookupSub, List.find?_append] at hl ⊢
  simp [hl]

theorem updateIn_lookup (f : Subscriber → Option Subscriber) (hf : ConsumerOp f) (h1 h : Nat)
    (subs : List Entry) : ∀ subs1 p,
    updateIn f h1 subs = some subs1 → lookupSub h subs = some p →
      ∃ p1, lookupSub h subs1 = some p1 ∧ stream p1 = stream p ∧ p1.2 = p.2 ∧
        p1.1.cap = p.1.cap ∧ (h ≠ h1 → p1 = p) := by
  induction subs with
  | nil => intro subs1 p hr; cases hr
  | cons q rest ih =>
    intro subs1 p hr hl
    obtain ⟨sub, clist⟩ := q
    simp only [updateIn] at hr
    simp only [lookupSub, List.find?_cons] at hl
    split at hr
    · rename_i hid
      split at hr
      · cases hr
      · rename_i sub1 hs
        cases hr
        obtain ⟨hid1, _, hcap, hst, _⟩ := hf sub sub1 hs
        by_cases hh : sub.id = h
        · simp only [hh, beq_self_eq_true] at hl
          cases hl
          refine ⟨(sub1, clist), ?_, ?_, rfl, hcap, ?_⟩
          · simp [lookupSub, List.find?_cons, hid1, hh]
          · simp only [stream, hst]
          · intro hne; exact absurd (hh.symm.trans hid) hne
        · have hb : (sub.id == h) = false := by simpa using hh
          simp only [hb] at hl
          refine ⟨p, ?_, rfl, rfl, rfl, fun _ => rfl⟩
          simp only [lookupSub, List.find?_cons, hid1, hb]
          exact hl
    · split at hr
      · cases hr
      · rename_i rest1 hs
        cases hr
        by_cases hh : sub.id = h
        · simp only [hh, beq_self_eq_true] at hl
          cases hl
          exact ⟨(sub, clist), by simp [lookupSub, List.find?_cons, hh], rfl, rfl, rfl,
            fun _ => rfl⟩
        · have hb : (sub.id == h) = false := by simpa using hh
          simp only [hb] at hl
          obtain ⟨p1, hp1, hrest⟩ := ih rest1 p hs hl
          refine ⟨p1, ?_, hrest⟩
          simp only [lookupSub, List.find?_cons, hb]
          exact hp1

theorem flushEntry_handed (p : Entry) (hpe : 0 < p.1.waiting → p.1.buf = []) :
    (flushEntry p).1.taken ++ (flushEntry p).1.buf =
      p.1.taken ++ p.1.buf ++ p.2.take (flushCount p.1 p.2) := by
  have hle := directCount_le p.1 p.2
  by_cases hw : 0 < p.1.waiting
  · have h1 : (p.2.take (flushCount p.1 p.2)).take (directCount p.1 p.2) =
        p.2.take (directCount p.1 p.2) := by
      rw [List.take_take, Nat.min_eq_left hle]
    have h2 := List.take_append_drop (directCount p.1 p.2) (p.2.take (flushCount p.1 p.2))
    rw [h1] at h2
    simp only [flushEntry, hpe hw, List.nil_append, List.append_nil, List.append_assoc, h2]
  · have h0 : directCount p.1 p.2 = 0 := by
      simp only [directCount]
      omega
    simp only [flushEntry, h0, List.take_zero, List.drop_zero, List.append_nil,
      List.append_assoc]

theorem stream_flushEntry (p : Entry) (hpe : 0 < p.1.waiting → p.1.buf = []) :
    stream (flushEntry p) = stream p := by
  have h := flushEntry_handed p hpe
  have h2 : (flushEntry p).2 = p.2.drop (flushCount p.1 p.2) := rfl
  simp only [stream, h, h2, List.append_assoc, List.take_append_drop]

theorem stream_pushEntry (c : Content) (p : Entry) (hpe : 0 < p.1.waiting → p.1.buf = []) :
    stream (pushEntry c p) = stream p ++ [c] := by
  unfold pushEntry
  split
  · rw [stream_flushEntry (p.1, p.2 ++ [c]) hpe]
    simp only [stream, List.append_assoc]
  · have := congrArg (fun l => l ++ [c]) (stream_flushEntry p hpe)
    simpa only [stream, List.append_assoc] using this

/-! ## One handle along a run -/

theorem step_keeps (w w1 : World) (e : Event) (h : Nat) (p : Entry) (hw : WF w)
    (hl : lookupSub h w.broker.subscribers = some p) (hs : step w e = .ok w1) :
    lookupSub h w1.broker.subscribers = none ∨
      ∃ p1, lookupSub h w1.broker.subscribers = some p1 ∧
        stream p1 = stream p ++ published [e] := by
  have hpe : 0 < p.1.waiting → p.1.buf = [] := hw.parkedEmpty p (lookupSub_some hl).1
  have hmap : lookupSub h (w.broker.subscribers.map flushEntry) = some (flushEntry p) := by
    simp [lookupSub_map h _ flushEntry_id, hl]
  have hnd : (subIds (w.broker.subscribers.map flushEntry)).Nodup := by
    rw [subIds_map _ flushEntry_id]; exact hw.nodup
  have hsw : ∀ (w0 : World) (n : Nat) (e0 : Event), published [e0] = [] →
      w0.broker.subscribers = w.broker.subscribers →
      (lookupSub h (swept w0 n).broker.subscribers = none ∨
        ∃ p1, lookupSub h (swept w0 n).broker.subscribers = some p1 ∧
          stream p1 = stream p ++ published [e0]) := by
    intro w0 n e0 he0 h0
    have := lookupSub_filter h _ hnd (fun p => p.2.length != 0) _ hmap
    simp only [swept, h0, this]
    split
    · exact Or.inr ⟨_, rfl, by simp [he0, stream_flushEntry p hpe]⟩
    · exact Or.inl rfl
  have hcons : ∀ (e0 : Event), published [e0] = [] →
      ((∃ f h1 subs, ConsumerOp f ∧ updateIn f h1 w.broker.subscribers = some subs ∧
        w1 = { w with broker := { w.broker with subscribers := subs } }) ∨
      (∃ h1, w1 = { w with released := recvReleased h1 w.released })) →
      (lookupSub h w1.broker.subscribers = none ∨
        ∃ p1, lookupSub h w1.broker.subscribers = some p1 ∧
          stream p1 = stream p ++ published [e0]) := by
    intro e0 he0 hc
    rcases hc with ⟨f, h1, subs, hf, hr, rfl⟩ | ⟨h1, rfl⟩
    · obtain ⟨p1, hp1, hst, _⟩ := updateIn_lookup f hf h1 h _ subs p hr hl
      exact Or.inr ⟨p1, hp1, by simp [he0, hst]⟩
    · exact Or.inr ⟨p, hl, by simp [he0]⟩
  cases e with
  | content c =>
    obtain ⟨_, n, rfl⟩ := step_content_inv w w1 c hw hs
    refine Or.inr ⟨pushEntry c p, ?_, stream_pushEntry c p hpe⟩
    simp [contentPushed, lookupSub_map h _ (pushEntry_id c), hl]
  | timer =>
    obtain ⟨_, _, n, rfl⟩ := step_timer_inv w w1 hw hs
    refine Or.inr ⟨flushEntry p, ?_, by simp [published, stream_flushEntry p hpe]⟩
    simp [timerPushed, lookupSub_map h _ flushEntry_id, hl]
  | regSub size =>
    obtain ⟨_, rfl⟩ := step_regSub_inv w w1 size hw hs
    exact Or.inr ⟨p, lookupSub_append_left h _ _ p hl, by simp [published]⟩
  | unRegSub h1 =>
    obtain ⟨_, ⟨_, rfl⟩ | ⟨p1, _, rfl⟩⟩ := step_unRegSub_inv w w1 h1 hw hs
    · exact Or.inr ⟨p, hl, by simp [published]⟩
    · have := lookupSub_filter h _ hw.nodup (fun p => p.1.id != h1) p hl
      simp only [deleteSub, this]
      split
      · exact Or.inr ⟨p, rfl, by simp [published]⟩
      · exact Or.inl rfl
  | stop =>
    obtain ⟨_, ⟨_, _, n, rfl⟩ | ⟨_, _, _, rfl⟩ | ⟨_, _, _, n, rfl⟩⟩ := step_stop_inv w w1 hw hs
    · exact hsw _ n .stop rfl rfl
    · exact Or.inl rfl
    · exact hsw _ n .stop rfl rfl
  | stopBroker =>
    obtain ⟨_, rfl | rfl⟩ := stopBroker_ok w w1 hs
    · exact Or.inr ⟨p, hl, by simp [published]⟩
    · exact Or.inr ⟨p, hl, by simp [published]⟩
  | recv h1 =>
    exact hcons _ rfl (step_consumer_inv w w1 _ (Or.inl ⟨h1, rfl⟩) hs)
  | park h1 =>
    exact hcons _ rfl (step_consumer_inv w w1 _ (Or.inr (Or.inl ⟨h1, rfl⟩)) hs)
  | unpark h1 =>
    exact hcons _ rfl (step_consumer_inv w w1 _ (Or.inr (Or.inr ⟨h1, rfl⟩)) hs)
  | stopHandOff =>
    obtain ⟨_, _, _, n, rfl⟩ := step_stopHandOff_inv w w1 hw hs
    exact hsw _ n .stopHandOff rfl rfl

theorem step_ids (w w1 : World) (e : Event) (hw : WF w) (hs : step w e = .ok w1) :
    (∀ x ∈ subIds w1.broker.subscribers, x ∈ subIds w.broker.subscribers ∨ x = w.fresh) ∧
      w.fresh ≤ w1.fresh := by
  have hsw : ∀ (w0 : World) (n : Nat), w0.broker.subscribers = w.broker.subscribers →
      ∀ x ∈ subIds (swept w0 n).broker.subscribers, x ∈ subIds w.broker.subscribers := by
    intro w0 n h0 x hx
    have := (subIds_filter_sublist (fun p => p.2.length != 0)
      (w0.broker.subscribers.map flushEntry)).subset hx
    rwa [subIds_map _ flushEntry_id, h0] at this
  have hcons : ((∃ f h1 subs, ConsumerOp f ∧ updateIn f h1 w.broker.subscribers = some subs ∧
        w1 = { w with broker := { w.broker with subscribers := subs } }) ∨
      (∃ h1, w1 = { w with released := recvReleased h1 w.released })) →
      (∀ x ∈ subIds w1.broker.subscribers, x ∈ subIds w.broker.subscribers ∨ x = w.fresh) ∧
        w.fresh ≤ w1.fresh := by
    intro hc
    rcases hc with ⟨f, h1, subs, hf, hr, rfl⟩ | ⟨h1, rfl⟩
    · obtain ⟨hids, _⟩ := updateIn_shape f hf h1 _ subs hr
      exact ⟨fun x hx => Or.inl (hids ▸ hx), Nat.le_refl _⟩
    · exact ⟨fun x hx => Or.inl hx, Nat.le_refl _⟩
  cases e with
  | content c =>
    obtain ⟨_, n, rfl⟩ := step_content_inv w w1 c hw hs
    refine ⟨fun x hx => Or.inl ?_, Nat.le_refl _⟩
    simpa [contentPushed, subIds_map _ (pushEntry_id c)] using hx
  | timer =>
    obtain ⟨_, _, n, rfl⟩ := step_timer_inv w w1 hw hs
    refine ⟨fun x hx => Or.inl ?_, Nat.le_refl _⟩
    simpa [timerPushed, subIds_map _ flushEntry_id] using hx
  | regSub size =>
    obtain ⟨_, rfl⟩ := step_regSub_inv w w1 size hw hs
    refine ⟨fun x hx => ?_, Nat.le_succ _⟩
    simpa [subIds] using hx
  | unRegSub h1 =>
    obtain ⟨_, ⟨_, rfl⟩ | ⟨p1, _, rfl⟩⟩ := step_unRegSub_inv w w1 h1 hw hs
    · exact ⟨fun x hx => Or.inl hx, Nat.le_refl _⟩
    · exact ⟨fun x hx => Or.inl ((subIds_deleteSub_sublist h1 _).subset hx), Nat.le_refl _⟩
  | stop =>
    obtain ⟨_, ⟨_, _, n, rfl⟩ | ⟨_, _, _, rfl⟩ | ⟨_, _, _, n, rfl⟩⟩ := step_stop_inv w w1 hw hs
    · exact ⟨fun x hx => Or.inl (hsw _ n rfl x hx), Nat.le_refl _⟩
    · exact ⟨fun x hx => by simp [exitedWorld, subIds] at hx, Nat.le_refl _⟩
    · exact ⟨fun x hx => Or.inl (hsw _ n rfl x hx), Nat.le_refl _⟩
  | stopBroker =>
    obtain ⟨_, rfl | rfl⟩ := stopBroker_ok w w1 hs
    · exact ⟨fun x hx => Or.inl hx, Nat.le_refl _⟩
    · exact ⟨fun x hx => Or.inl hx, Nat.le_refl _⟩
  | recv h1 => exact hcons (step_consumer_inv w w1 _ (Or.inl ⟨h1, rfl⟩) hs)
  | park h1 => exact hcons (step_consumer_inv w w1 _ (Or.inr (Or.inl ⟨h1, rfl⟩)) hs)
  | unpark h1 => exact hcons (step_consumer_inv w w1 _ (Or.inr (Or.inr ⟨h1, rfl⟩)) hs)
  | stopHandOff =>
    obtain ⟨_, _, _, n, rfl⟩ := step_stopHandOff_inv w w1 hw hs
    exact ⟨fun x hx => Or.inl (hsw _ n rfl x hx), Nat.le_refl _⟩

theorem run_gone (h : Nat) (es : List Event) : ∀ (w w1 : World), WF w → h < w.fresh →
    lookupSub h w.broker.subscribers = none → run w es = .ok w1 →
      lookupSub h w1.broker.subscribers = none := by
  induction es with
  | nil => intro w w1 _ _ hl hr; cases hr; exact hl
  | cons e es ih =>
    intro w w1 hw hlt hl hr
    simp only [run] at hr
    split at hr
    · cases hr
    · rename_i w2 hs
      obtain ⟨hids, hfr⟩ := step_ids w w2 e hw hs
      refine ih w2 w1 (WF_step w w2 e hw hs) (Nat.lt_of_lt_of_le hlt hfr) ?_ hr
      rw [lookupSub_none] at hl ⊢
      intro hm
      rcases hids h hm with hm | hm
      · exact hl hm
      · omega

theorem published_cons (e : Event) (es : List Event) :
    published (e :: es) = published [e] ++ published es := by
  cases e <;> simp [published]

theorem run_stream (h : Nat) (es : List Event) : ∀ (w w1 : World) (p q : Entry), WF w →
    lookupSub h w.broker.subscribers = some p → run w es = .ok w1 →
      lookupSub h w1.broker.subscribers = some q → stream q = stream p ++ published es := by
  induction es with
  | nil =>
    intro w w1 p q _ hl hr hq
    cases hr
    rw [hl] at hq
    cases hq
    simp [published]
  | cons e es ih =>
    intro w w1 p q hw hl hr hq
    simp only [run] at hr
    split at hr
    · cases hr
    · rename_i w2 hs
      have hw2 := WF_step w w2 e hw hs
      rcases step_keeps w w2 e h p hw hl hs with hnone | ⟨p1, hp1, hst⟩
      · have hlt : h < w2.fresh :=
          Nat.lt_of_lt_of_le
            (hw.idsLt h ((lookupSub_some hl).2 ▸
              List.mem_map_of_mem (fun p => p.1.id) (lookupSub_some hl).1))
            (step_ids w w2 e hw hs).2
        rw [run_gone h es w2 w1 hw2 hlt hnone hr] at hq
        cases hq
      · rw [ih w2 w1 p1 q hw2 hp1 hr hq, hst, List.append_assoc, ← published_cons]

/-! ## The stop case -/

theorem flushEntry_of_count_zero (p : Entry) (h : flushCount p.1 p.2 = 0) : flushEntry p = p := by
  have hd : directCount p.1 p.2 = 0 := by
    have := directCount_le p.1 p.2
    omega
  obtain ⟨sub, clist⟩ := p
  simp only at h hd
  simp [flushEntry, h, hd]

theorem flushEntry_of_nil (p : Entry) (h : p.2 = []) : flushEntry p = p :=
  flushEntry_of_count_zero p (by simp [flushCount, h])

theorem length_le_backlogTotal (subs : List Entry) (p : Entry) (hp : p ∈ subs) :
    p.2.length ≤ backlogTotal subs := by
  induction subs with
  | nil => cases hp
  | cons q rest ih =>
    simp only [backlogTotal, List.map_cons, List.sum_cons] at ih ⊢
    rcases List.mem_cons.1 hp with rfl | hp
    · omega
    · have := ih hp
      omega

theorem swept_lookup (w : World) (n : Nat) (hn : (subIds w.broker.subscribers).Nodup)
    (p : Entry) (hp : p ∈ w.broker.subscribers) :
    ((flushEntry p).2 = [] →
        lookupSub p.1.id (swept w n).broker.subscribers = none ∧
          closedCopy (flushEntry p).1 ∈ (swept w n).released) ∧
      ((flushEntry p).2 ≠ [] →
        lookupSub p.1.id (swept w n).broker.subscribers = some (flushEntry p)) := by
  have hnd : (subIds (w.broker.subscribers.map flushEntry)).Nodup := by
    rw [subIds_map _ flushEntry_id]; exact hn
  have hmap : lookupSub p.1.id (w.broker.subscribers.map flushEntry) = some (flushEntry p) := by
    rw [lookupSub_map _ _ flushEntry_id, lookupSub_of_mem _ hn p hp]; rfl
  have hf := lookupSub_filter p.1.id _ hnd (fun p => p.2.length != 0) _ hmap
  constructor
  · intro he
    refine ⟨by simp [swept, timerPushed, hf, he], ?_⟩
    simp only [swept, List.mem_append, List.mem_map]
    refine Or.inr ⟨(flushEntry p).1, ⟨flushEntry p, ?_, rfl⟩, rfl⟩
    exact List.mem_filter.2 ⟨List.mem_map_of_mem flushEntry hp, by simp [he]⟩
  · intro hne
    have : (flushEntry p).2.length ≠ 0 := fun h0 => hne (List.length_eq_zero.1 h0)
    simp [swept, timerPushed, hf, this]

theorem step_timer_eq (w : World) (hw : WF w) (hex : w.exited = false)
    (ht : w.broker.timerChan = true) :
    ∃ n, step w .timer = .ok { w with broker := timerPushed w.broker n } := by
  obtain ⟨n, h1, _⟩ := onTimerPush_eq w.broker hw.allOpen
  exact ⟨n, by simp [step, hex, ht, h1]⟩

theorem step_content_eq (w : World) (hw : WF w) (hex : w.exited = false) (c : Content) :
    ∃ n, step w (.content c) = .ok { w with broker := contentPushed w.broker c n } := by
  obtain ⟨n, h1, _⟩ := onContentPush_eq w.broker c hw.allOpen
  exact ⟨n, by simp [step, hex, h1]⟩
/-! ## Deleting one handle -/

theorem deleteSub_cons_eq (h : Nat) (q : Entry) (rest : List Entry) (hq : q.1.id = h) :
    deleteSub h (q :: rest) = deleteSub h rest := by
  have hb : (q.1.id != h) = false := by simp [hq]
  simp only [deleteSub, List.filter_cons, hb]
  rfl

theorem deleteSub_cons_ne (h : Nat) (q : Entry) (rest : List Entry) (hq : q.1.id ≠ h) :
    deleteSub h (q :: rest) = q :: deleteSub h rest := by
  have hb : (q.1.id != h) = true := by simp [hq]
  simp only [deleteSub, List.filter_cons, hb]
  rfl

theorem lookupSub_cons_eq (h : Nat) (q : Entry) (rest : List Entry) (hq : q.1.id = h) :
    lookupSub h (q :: rest) = some q := by
  have hb : (q.1.id == h) = true := by simp [hq]
  simp only [lookupSub, List.find?_cons, hb]

theorem lookupSub_cons_ne (h : Nat) (q : Entry) (rest : List Entry) (hq : q.1.id ≠ h) :
    lookupSub h (q :: rest) = lookupSub h rest := by
  have hb : (q.1.id == h) = false := by simp [hq]
  simp only [lookupSub, List.find?_cons, hb]

theorem lookupSub_deleteSub_ne (h h1 : Nat) (hne : h1 ≠ h) (subs : List Entry) :
    lookupSub h1 (deleteSub h subs) = lookupSub h1 subs := by
  induction subs with
  | nil => rfl
  | cons q rest ih =>
    by_cases hq : q.1.id = h
    · have h2 : q.1.id ≠ h1 := fun h3 => hne (h3.symm.trans hq)
      rw [deleteSub_cons_eq h q rest hq, lookupSub_cons_ne h1 q rest h2, ih]
    · rw [deleteSub_cons_ne h q rest hq]
      by_cases h2 : q.1.id = h1
      · rw [lookupSub_cons_eq h1 q _ h2, lookupSub_cons_eq h1 q _ h2]
      · rw [lookupSub_cons_ne h1 q _ h2, lookupSub_cons_ne h1 q _ h2, ih]

theorem subIds_deleteSub (h : Nat) (subs : List Entry) (hn : (subIds subs).Nodup) :
    subIds (deleteSub h subs) = (subIds subs).erase h := by
  induction subs with
  | nil => rfl
  | cons q rest ih =>
    have hcons : subIds (q :: rest) = q.1.id :: subIds rest := rfl
    rw [hcons, List.nodup_cons] at hn
    by_cases hq : q.1.id = h
    · have hnot : h ∉ subIds rest := hq ▸ hn.1
      rw [deleteSub_cons_eq h q rest hq, deleteSub_fresh h rest hnot, hcons, hq,
        List.erase_cons_head]
    · have hb : (q.1.id == h) = false := by simp [hq]
      rw [deleteSub_cons_ne h q rest hq, hcons, List.erase_cons_tail (by simp [hq])]
      show q.1.id :: subIds (deleteSub h rest) = _
      rw [ih hn.2]

/-! ## Closing discipline -/

theorem relIds_recvReleased (h : Nat) (l : List Subscriber) :
    relIds (recvReleased h l) = relIds l := by
  have := congrArg (List.map Prod.fst) (recvReleased_shape h l)
  simpa [relIds, List.map_map, Function.comp_def] using this

theorem relIds_closedCopy (l : List Entry) :
    relIds ((l.map Prod.fst).map closedCopy) = subIds l := by
  simp [relIds, subIds, List.map_map, Function.comp_def, closedCopy]

theorem nodup_released_append (w : World) (hw : WF w) (hn : (relIds w.released).Nodup)
    (l : List Entry) (hl : (subIds l).Sublist (subIds w.broker.subscribers)) :
    (relIds (w.released ++ (l.map Prod.fst).map closedCopy)).Nodup := by
  have happ : relIds (w.released ++ (l.map Prod.fst).map closedCopy) =
      relIds w.released ++ subIds l := by
    rw [← relIds_closedCopy l]
    simp [relIds]
  rw [happ, List.nodup_append]
  refine ⟨hn, hl.nodup hw.nodup, ?_⟩
  intro a ha hb
  obtain ⟨sub, hsub, rfl⟩ := List.mem_map.1 ha
  exact hw.relOut sub hsub (hl.subset hb)


/-- What every successful step does to the released inboxes: their
identities stay distinct, and an inbox that is released after the step either
was released before or was in the registry before. -/
theorem step_released (w w1 : World) (e : Event) (hw : WF w) (hn : (relIds w.released).Nodup)
    (hs : step w e = .ok w1) :
    (relIds w1.released).Nodup ∧
      ∀ sub ∈ w1.released, sub.id ∈ relIds w.released ∨ sub.id ∈ subIds w.broker.subscribers := by
  have hsame : ∀ w2 : World, w2.released = w.released →
      (relIds w2.released).Nodup ∧ ∀ sub ∈ w2.released,
        sub.id ∈ relIds w.released ∨ sub.id ∈ subIds w.broker.subscribers := by
    intro w2 h2
    rw [h2]
    exact ⟨hn, fun sub hsub => Or.inl (List.mem_map_of_mem (fun s => s.id) hsub)⟩
  have happ : ∀ (w2 : World) (l : List Entry),
      (subIds l).Sublist (subIds w.broker.subscribers) →
      w2.released = w.released ++ (l.map Prod.fst).map closedCopy →
      (relIds w2.released).Nodup ∧ ∀ sub ∈ w2.released,
        sub.id ∈ relIds w.released ∨ sub.id ∈ subIds w.broker.subscribers := by
    intro w2 l hl h2
    rw [h2]
    refine ⟨nodup_released_append w hw hn l hl, fun sub hsub => ?_⟩
    rcases List.mem_append.1 hsub with hsub | hsub
    · exact Or.inl (List.mem_map_of_mem (fun s => s.id) hsub)
    · right
      apply hl.subset
      rw [← relIds_closedCopy l]
      exact List.mem_map_of_mem (fun s => s.id) hsub
  have hflush : (subIds ((w.broker.subscribers.map flushEntry).filter
      (fun p => p.2.length == 0))).Sublist (subIds w.broker.subscribers) := by
    have := subIds_filter_sublist (fun p => p.2.length == 0) (w.broker.subscribers.map flushEntry)
    rwa [subIds_map _ flushEntry_id] at this
  have hcons : ((∃ f h1 subs, ConsumerOp f ∧ updateIn f h1 w.broker.subscribers = some subs ∧
        w1 = { w with broker := { w.broker with subscribers := subs } }) ∨
      (∃ h1, w1 = { w with released := recvReleased h1 w.released })) →
      (relIds w1.released).Nodup ∧ ∀ sub ∈ w1.released,
        sub.id ∈ relIds w.released ∨ sub.id ∈ subIds w.broker.subscribers := by
    intro hc
    rcases hc with ⟨f, h1, subs, _, _, rfl⟩ | ⟨h1, rfl⟩
    · exact hsame _ rfl
    · refine ⟨by rw [relIds_recvReleased]; exact hn, fun sub hsub => Or.inl ?_⟩
      rw [← relIds_recvReleased h1]
      exact List.mem_map_of_mem (fun s => s.id) hsub
  cases e with
  | content c =>
    obtain ⟨_, n, rfl⟩ := step_content_inv w w1 c hw hs
    exact hsame _ rfl
  | timer =>
    obtain ⟨_, _, n, rfl⟩ := step_timer_inv w w1 hw hs
    exact hsame _ rfl
  | regSub size =>
    obtain ⟨_, rfl⟩ := step_regSub_inv w w1 size hw hs
    exact hsame _ rfl
  | unRegSub h =>
    obtain ⟨_, ⟨_, rfl⟩ | ⟨p, hl, rfl⟩⟩ := step_unRegSub_inv w w1 h hw hs
    · exact hsame _ rfl
    · refine happ _ [p] ?_ rfl
      have := List.mem_map_of_mem (fun p => p.1.id) (lookupSub_some hl).1
      simpa [subIds] using this
  | stop =>
    obtain ⟨_, ⟨_, _, n, rfl⟩ | ⟨_, _, _, rfl⟩ | ⟨_, _, _, n, rfl⟩⟩ := step_stop_inv w w1 hw hs
    · exact happ _ _ hflush rfl
    · exact happ _ _ (List.Sublist.refl _) rfl
    · exact happ _ _ hflush rfl
  | stopBroker =>
    obtain ⟨_, rfl | rfl⟩ := stopBroker_ok w w1 hs
    · exact hsame _ rfl
    · exact hsame _ rfl
  | recv h => exact hcons (step_consumer_inv w w1 _ (Or.inl ⟨h, rfl⟩) hs)
  | park h => exact hcons (step_consumer_inv w w1 _ (Or.inr (Or.inl ⟨h, rfl⟩)) hs)
  | unpark h => exact hcons (step_consumer_inv w w1 _ (Or.inr (Or.inr ⟨h, rfl⟩)) hs)
  | stopHandOff =>
    obtain ⟨_, _, _, n, rfl⟩ := step_stopHandOff_inv w w1 hw hs
    exact happ _ _ hflush rfl

theorem run_released (es : List Event) : ∀ (w w1 : World), WF w → (relIds w.released).Nodup →
    run w es = .ok w1 → (relIds w1.released).Nodup := by
  induction es with
  | nil => intro w w1 _ hn hr; cases hr; exact hn
  | cons e es ih =>
    intro w w1 hw hn hr
    simp only [run] at hr
    split at hr
    · cases hr
    · rename_i w2 hs
      exact ih w2 w1 (WF_step w w2 e hw hs) (step_released w w2 e hw hn hs).1 hr

theorem Reachable.released_nodup {w : World} (h : Reachable w) : (relIds w.released).Nodup := by
  obtain ⟨es, hr⟩ := h
  exact run_released es _ _ WF_init (by simp [World.init, relIds]) hr

/-- From a consistent state, the only panic among the events of the broker
goroutine and of the consumers is the stop event that finds the stop channel
closed with a value in its slot: the second `close(broker.stop)`.  No send on
an inbox and no `close` of an inbox panics. -/
theorem step_panic_inv (w : World) (e : Event) (hw : WF w) (he : e ≠ .stopBroker)
    (hs : step w e = .error .panic) :
    e = .stop ∧ w.exited = false ∧ w.broker.stop.pending = true ∧
      w.broker.stop.closed = true := by
  cases e with
  | content c =>
    by_cases hex : w.exited = true
    · simp [step, hex] at hs
    · obtain ⟨n, h1, _⟩ := onContentPush_eq w.broker c hw.allOpen
      simp [step, hex, h1] at hs
  | timer =>
    by_cases hex : w.exited = true ∨ w.broker.timerChan = false
    · simp [step, hex] at hs
    · obtain ⟨n, h1, _⟩ := onTimerPush_eq w.broker hw.allOpen
      simp [step, hex, h1] at hs
  | regSub size =>
    by_cases hex : w.exited = true
    · simp [step, hex] at hs
    · simp [step, hex] at hs
  | unRegSub h =>
    by_cases hex : w.exited = true
    · simp [step, hex] at hs
    · have hex : w.exited = false := by simpa using hex
      cases hl : lookupSub h w.broker.subscribers with
      | none => simp [step, hex, hl] at hs
      | some p => simp [unRegSub_eq w hw hex h p hl] at hs
  | stop =>
    by_cases hex : w.exited = true
    · simp [step, hex] at hs
    · have hex : w.exited = false := by simpa using hex
      rw [step_stop_eq w hex] at hs
      by_cases hp : w.broker.stop.pending = true
      · by_cases hc : w.broker.stop.closed = true
        · exact ⟨rfl, hex, hp, hc⟩
        · have hc : w.broker.stop.closed = false := by simpa using hc
          obtain ⟨n, h1, _⟩ := onStop_initial w hw.allOpen hp hc
          simp [h1] at hs
      · have hp : w.broker.stop.pending = false := by simpa using hp
        by_cases hc : w.broker.stop.closed = true
        · by_cases hz : w.broker.cachenum = 0
          · simp [onStop_exit w hw.allOpen hp hc hz] at hs
          · obtain ⟨n, h1, _⟩ := onStop_sweep w hw.allOpen hp hc hz
            simp [h1] at hs
        · simp [onStop, hp, hc] at hs
  | stopBroker => exact absurd rfl he
  | recv h =>
    simp only [step] at hs
    split at hs
    · split at hs <;> simp at hs
    · split at hs <;> simp at hs
  | park h =>
    simp only [step] at hs
    split at hs <;> simp at hs
  | unpark h =>
    simp only [step] at hs
    split at hs <;> simp at hs
  | stopHandOff =>
    by_cases hex : w.exited = true
    · simp [step, hex] at hs
    · have hex : w.exited = false := by simpa using hex
      by_cases hpc : w.broker.stop.pending = true ∧ w.broker.stop.closed = false
      · obtain ⟨n, h1⟩ := onStopHandOff_eq w hw.allOpen hpc.1 hpc.2
        simp [step, hex, h1] at hs
      · simp [step, hex, onStopHandOff, hpc] at hs

/-! ## The order in which the registry is ranged over

Go ranges over a map in an unspecified order.  What every entry becomes does
not depend on the order (`flushAll_eq`, `pushAll_eq`).  On a registry of open
inboxes whose backlogs the counter covers, and with a counter that cannot wrap
during the pass, both loops also leave the same counter whatever the order. -/

theorem backlogTotal_perm {subs subs1 : List Entry} (hp : subs.Perm subs1) :
    backlogTotal subs = backlogTotal subs1 := by
  unfold backlogTotal
  exact (hp.map (fun p : Entry => p.2.length)).sum_eq

theorem allOpen_perm {subs subs1 : List Entry} (hp : subs.Perm subs1) (ho : AllOpen subs) :
    AllOpen subs1 :=
  fun p hq => ho p (hp.symm.subset hq)

theorem pushAll_perm (content : Content) (subs subs1 : List Entry) (n : Nat)
    (hp : subs.Perm subs1) (ho : AllOpen subs) (hn : backlogTotal subs ≤ n)
    (hsz : n + subs.length < uintSize) :
    ∃ m, pushAll content subs n = some (subs.map (pushEntry content), m) ∧
      pushAll content subs1 n = some (subs1.map (pushEntry content), m) := by
  obtain ⟨m, h1, h2⟩ := pushAll_eq content subs n ho
  obtain ⟨m1, h3, h4⟩ := pushAll_eq content subs1 n (allOpen_perm hp ho)
  have e1 := backlogTotal_perm hp
  have e2 := backlogTotal_perm (hp.map (pushEntry content))
  have e3 := hp.length_eq
  have := h2 hn hsz
  have := h4 (e1 ▸ hn) (e3 ▸ hsz)
  have hm : m1 = m := by omega
  exact ⟨m, h1, hm ▸ h3⟩

theorem flushAll_perm (subs subs1 : List Entry) (n : Nat)
    (hp : subs.Perm subs1) (ho : AllOpen subs) (hn : backlogTotal subs ≤ n) :
    ∃ m, flushAll subs n = some (subs.map flushEntry, m) ∧
      flushAll subs1 n = some (subs1.map flushEntry, m) := by
  obtain ⟨m, h1, h2⟩ := flushAll_eq subs n ho
  obtain ⟨m1, h3, h4⟩ := flushAll_eq subs1 n (allOpen_perm hp ho)
  have e1 := backlogTotal_perm hp
  have e2 := backlogTotal_perm (hp.map flushEntry)
  have := h2 hn
  have := h4 (e1 ▸ hn)
  have hm : m1 = m := by omega
  exact ⟨m, h1, hm ▸ h3⟩

/-! ## The guard of the decrement -/

theorem flushGuard_ok (clist : List Content) : ∀ (sub : Subscriber) (n : Nat),
    sub.closed = false → flushCount sub clist ≤ n → flushGuard sub clist n = true := by
  induction clist with
  | nil => intro sub n _ _; rfl
  | cons v rest ih =>
    intro sub n hc hn
    obtain ⟨id, cap, buf, closed, taken, waiting⟩ := sub
    simp only at hc
    subst hc
    have hdec : (if n > 0 then n - 1 else n) = n - 1 := by split <;> omega
    by_cases hw : 0 < waiting
    · have hk : flushCount ⟨id, cap, buf, false, taken, waiting⟩ (v :: rest)
          = flushCount ⟨id, cap, buf, false, taken ++ [v], waiting - 1⟩ rest + 1 := by
        simp only [flushCount, List.length_cons]
        omega
      have hpos : 0 < n := by omega
      simp only [flushGuard, trySend, hw, if_true, Bool.false_eq_true, if_false, hdec]
      rw [ih ⟨id, cap, buf, false, taken ++ [v], waiting - 1⟩ (n - 1) rfl (by omega)]
      simp [hpos]
    · by_cases hlt : buf.length < cap
      · have hk : flushCount ⟨id, cap, buf, false, taken, waiting⟩ (v :: rest)
            = flushCount ⟨id, cap, buf ++ [v], false, taken, waiting⟩ rest + 1 := by
          simp only [flushCount, List.length_cons, List.length_append, List.length_nil]
          omega
        have hpos : 0 < n := by omega
        simp only [flushGuard, trySend, hw, hlt, if_true, Bool.false_eq_true, if_false, hdec]
        rw [ih ⟨id, cap, buf ++ [v], false, taken, waiting⟩ (n - 1) rfl (by omega)]
        simp [hpos]
      · simp [flushGuard, trySend, hw, hlt]

theorem flushAllGuard_ok (subs : List Entry) : ∀ n : Nat, AllOpen subs →
    backlogTotal subs ≤ n → flushAllGuard subs n = true := by
  induction subs with
  | nil => intro n _ _; rfl
  | cons p rest ih =>
    intro n ho hn
    obtain ⟨sub, clist⟩ := p
    have hp : sub.closed = false := ho (sub, clist) (List.mem_cons_self _ _)
    have hr : AllOpen rest := fun q hq => ho q (List.mem_cons_of_mem _ hq)
    have hk := flushCount_le_length sub clist
    simp only [backlogTotal, List.map_cons, List.sum_cons] at hn
    have hrest : backlogTotal rest ≤ n - flushCount sub clist := by
      simp only [backlogTotal]
      omega
    have hf := flush_entry (sub, clist) n hp
    simp only at hf
    simp only [flushAllGuard, hf, flushGuard_ok clist sub n hp (by omega), ih _ hr hrest,
      Bool.and_self]

/-! ## Stale counts up to the wrap-around of the counter -/

theorem one_lt_uintSize : 1 < uintSize := by
  unfold uintSize
  exact Nat.one_lt_two_pow (by decide)

theorem uintSize_wrap : (uintSize - 1 + 1) % uintSize = 0 := by
  have := uintSize_pos
  rw [Nat.sub_add_cancel this, Nat.mod_self]

theorem run_append (es1 : List Event) : ∀ (w w1 : World) (es2 : List Event),
    run w es1 = .ok w1 → run w (es1 ++ es2) = run w1 es2 := by
  induction es1 with
  | nil => intro w w1 es2 h; cases h; rfl
  | cons e es ih =>
    intro w w1 es2 h
    simp only [run, List.cons_append] at h ⊢
    cases hs : step w e with
    | error f => simp only [hs] at h; cases h
    | ok w2 =>
      simp only [hs] at h ⊢
      exact ih w2 w1 es2 h

/-- One stale round on a running broker with an empty registry: the registry
is empty again, the counter is one higher (as a `uint`), one more channel
identity is used up. -/
theorem staleRound_run (w : World) (hex : w.exited = false)
    (hs : w.broker.subscribers = []) :
    ∃ w1, run w (staleRound w.fresh) = .ok w1 ∧ w1.exited = false ∧
      w1.broker.subscribers = [] ∧
      w1.broker.cachenum = (w.broker.cachenum + 1) % uintSize ∧
      w1.broker.stop = w.broker.stop ∧ w1.fresh = w.fresh + 1 := by
  obtain ⟨⟨stop, subs, cachenum, timerChan⟩, exited, released, fresh⟩ := w
  simp only at hex hs
  subst hex hs
  simp [staleRound, run, step, deleteSub, onContentPush, pushAll, pushSub, flush, trySend,
    lookupSub, closeSub]

/-- Any number of stale rounds on a running broker with an empty registry. -/
theorem staleRounds_run : ∀ (k : Nat) (w : World), w.exited = false →
    w.broker.subscribers = [] → w.broker.cachenum < uintSize →
    ∃ w1, run w (staleRounds w.fresh k) = .ok w1 ∧ w1.exited = false ∧
      w1.broker.subscribers = [] ∧
      w1.broker.cachenum = (w.broker.cachenum + k) % uintSize ∧
      w1.broker.stop = w.broker.stop ∧ w1.fresh = w.fresh + k := by
  intro k
  induction k with
  | zero =>
    intro w hex hs hlt
    exact ⟨w, rfl, hex, hs, (Nat.mod_eq_of_lt hlt).symm, rfl, rfl⟩
  | succ k ih =>
    intro w hex hs hlt
    obtain ⟨w1, h1, hex1, hs1, hc1, hst1, hf1⟩ := staleRound_run w hex hs
    have hlt1 : w1.broker.cachenum < uintSize := by
      rw [hc1]
      exact Nat.mod_lt _ uintSize_pos
    obtain ⟨w2, h2, hex2, hs2, hc2, hst2, hf2⟩ := ih w1 hex1 hs1 hlt1
    refine ⟨w2, ?_, hex2, hs2, ?_, by rw [hst2, hst1], by rw [hf2, hf1]; omega⟩
    · simp only [staleRounds]
      rw [run_append _ w w1 _ h1, ← hf1]
      exact h2
    · rw [hc2, hc1, Nat.mod_add_mod]
      congr 1
      omega

/-- The state after `uintSize - 1` stale rounds on a fresh broker: running,
with an empty registry, the counter at the largest `uint`, and the timer
armed. -/
theorem stale_wrap_state :
    ∃ w, run World.init (staleRounds 0 (uintSize - 1)) = .ok w ∧ w.exited = false ∧
      w.broker.subscribers = [] ∧ w.broker.cachenum = uintSize - 1 ∧
      w.broker.stop = { pending := false, closed := false } ∧ w.fresh = uintSize - 1 ∧
      w.broker.timerChan = true := by
  obtain ⟨w, h1, hex, hs, hc, hst, hf⟩ :=
    staleRounds_run (uintSize - 1) World.init rfl rfl uintSize_pos
  have hc1 : w.broker.cachenum = uintSize - 1 := by
    rw [hc]
    have : World.init.broker.cachenum = 0 := rfl
    rw [this, Nat.zero_add]
    exact Nat.mod_eq_of_lt (by have := uintSize_pos; omega)
  have hf1 : w.fresh = uintSize - 1 := by
    rw [hf]
    exact Nat.zero_add _
  have hwf : WF w := Reachable.wf ⟨_, h1⟩
  refine ⟨w, h1, hex, hs, hc1, hst, hf1, hwf.timer ?_⟩
  have := one_lt_uintSize
  omega

/-! ## The claims -/

/-- C1 (per-subscriber order, no loss): take any reachable state, register a
subscriber there (it gets the handle `w.fresh`) and let any sequence of events
follow.  If the handle is still in the registry afterwards, then what its
consumer has received, followed by the inbox, followed by the backlog, is
exactly the sequence of messages the broker took from `contents` since the
registration, in that order. -/
theorem per_subscriber_order_no_loss (w w1 : World) (size : Nat) (es : List Event) (q : Entry)
    (hw : Reachable w) (hr : run w (.regSub size :: es) = .ok w1)
    (hq : lookupSub w.fresh w1.broker.subscribers = some q) :
    q.1.taken ++ q.1.buf ++ q.2 = published es := by
  simp only [run] at hr
  split at hr
  · cases hr
  · rename_i w2 hs
    obtain ⟨_, rfl⟩ := step_regSub_inv w w2 size hw.wf hs
    have hl : lookupSub w.fresh (w.broker.subscribers ++
        [({ id := w.fresh, cap := size, buf := [], closed := false, taken := [] }, [])]) =
        some ({ id := w.fresh, cap := size, buf := [], closed := false, taken := [] }, []) := by
      have hn := lookupSub_none.2 (fresh_not_mem w hw.wf)
      simp only [lookupSub] at hn ⊢
      simp [List.find?_append, hn]
    have := run_stream w.fresh es _ w1 _ q (WF_step w _ _ hw.wf hs) hl hr hq
    simpa [stream] using this

/-- Witness for C1: capacity 1, `a` and `b` published, `a` read, the timer
fires, `c` published. -/
theorem per_subscriber_order_no_loss_witness :
    lookupSub 0 [({ id := 0, cap := 1, buf := ["b"], closed := false, taken := ["a"] }, ["c"])] =
        some ({ id := 0, cap := 1, buf := ["b"], closed := false, taken := ["a"] }, ["c"]) ∧
      (["a"] ++ ["b"] ++ ["c"] : List Content) =
        published [.content "a", .content "b", .recv 0, .timer, .content "c"] :=
  ⟨rfl, per_subscriber_order_no_loss World.init
    { broker :=
        { stop := { pending := false, closed := false }
          subscribers :=
            [({ id := 0, cap := 1, buf := ["b"], closed := false, taken := ["a"] }, ["c"])]
          cachenum := 1
          timerChan := true }
      exited := false
      released := []
      fresh := 1 }
    1 [.content "a", .content "b", .recv 0, .timer, .content "c"]
    ({ id := 0, cap := 1, buf := ["b"], closed := false, taken := ["a"] }, ["c"])
    ⟨[], rfl⟩ rfl rfl⟩

/-- C2 (the counter against the backlogs), evaluated where it fails: a
subscriber of capacity 0 is registered, one message is published (it goes to
the backlog, the counter becomes 1), and the subscriber is unregistered.  The
registry is then empty, so the backlog lengths sum to 0, but the unregister case
has not touched `cachenum`, which is still 1. -/
theorem cachenum_stale_after_unregister :
    run World.init [.regSub 0, .content "a", .unRegSub 0] =
        .ok (World.after [.regSub 0, .content "a", .unRegSub 0]) ∧
      (World.after [.regSub 0, .content "a", .unRegSub 0]).broker.subscribers = [] ∧
      backlogTotal (World.after [.regSub 0, .content "a", .unRegSub 0]).broker.subscribers = 0 ∧
      (World.after [.regSub 0, .content "a", .unRegSub 0]).broker.cachenum = 1 :=
  ⟨rfl, rfl, rfl, rfl⟩

/-- C3 as stated fails: with an inbox of capacity 2, `a`, `b`, `c` are
published (`c` is buffered and the timer armed), the consumer reads `a` and
`b`, and `d` is published before the timer fires.  The publish flushes `c`
and hands `d` over, the counter is back to 0, and the timer is still armed. -/
theorem timer_armed_with_zero_count :
    run World.init [.regSub 2, .content "a", .content "b", .content "c", .recv 0, .recv 0,
        .content "d"] =
      .ok (World.after [.regSub 2, .content "a", .content "b", .content "c", .recv 0, .recv 0,
        .content "d"]) ∧
    (World.after [.regSub 2, .content "a", .content "b", .content "c", .recv 0, .recv 0,
      .content "d"]).broker.timerChan = true ∧
    (World.after [.regSub 2, .content "a", .content "b", .content "c", .recv 0, .recv 0,
      .content "d"]).broker.cachenum = 0 ∧
    ¬ ((World.after [.regSub 2, .content "a", .content "b", .content "c", .recv 0, .recv 0,
        .content "d"]).broker.timerChan = true ↔
      0 < (World.after [.regSub 2, .content "a", .content "b", .content "c", .recv 0, .recv 0,
        .content "d"]).broker.cachenum) :=
  ⟨rfl, rfl, rfl, by decide⟩

/-- C3, amended: after every event the broker goroutine handles from a
reachable state, a positive counter has an armed timer.  After a timer-fire
event, and after a stop event that does not end the loop, the timer is armed
exactly when the counter is positive.  After a publish the timer is armed
exactly when the counter is positive or the timer was armed before: a publish
never disarms.  Register and unregister change neither the timer nor the
counter. -/
theorem timer_after_event (w w1 : World) (e : Event) (hw : Reachable w)
    (hs : step w e = .ok w1) :
    (0 < w1.broker.cachenum → w1.broker.timerChan = true) ∧
      (e = .timer → (w1.broker.timerChan = true ↔ 0 < w1.broker.cachenum)) ∧
      (e = .stop → w1.exited = false →
        (w1.broker.timerChan = true ↔ 0 < w1.broker.cachenum)) ∧
      (∀ c, e = .content c →
        (w1.broker.timerChan = true ↔ 0 < w1.broker.cachenum ∨ w.broker.timerChan = true)) ∧
      (∀ x, e = .regSub x ∨ e = .unRegSub x →
        w1.broker.timerChan = w.broker.timerChan ∧ w1.broker.cachenum = w.broker.cachenum) := by
  refine ⟨(WF_step w w1 e hw.wf hs).timer, ?_, ?_, ?_, ?_⟩
  · rintro rfl
    obtain ⟨_, _, n, rfl⟩ := step_timer_inv w w1 hw.wf hs
    simp [timerPushed]
  · rintro rfl hex
    obtain ⟨_, ⟨_, _, n, rfl⟩ | ⟨_, _, _, rfl⟩ | ⟨_, _, _, n, rfl⟩⟩ :=
      step_stop_inv w w1 hw.wf hs
    · simp [swept, timerPushed]
    · simp [exitedWorld] at hex
    · simp [swept, timerPushed]
  · rintro c rfl
    obtain ⟨_, n, rfl⟩ := step_content_inv w w1 c hw.wf hs
    simp only [contentPushed]
    cases w.broker.timerChan <;> simp
  · rintro x (rfl | rfl)
    · obtain ⟨_, rfl⟩ := step_regSub_inv w w1 x hw.wf hs
      exact ⟨rfl, rfl⟩
    · obtain ⟨_, ⟨_, rfl⟩ | ⟨p, _, rfl⟩⟩ := step_unRegSub_inv w w1 x hw.wf hs
      · exact ⟨rfl, rfl⟩
      · exact ⟨rfl, rfl⟩

/-- Witness for the amended C3: the publish of `d` in the run above, which
leaves the timer armed because it was armed before. -/
theorem timer_after_event_witness :
    step (World.after [.regSub 2, .content "a", .content "b", .content "c", .recv 0, .recv 0])
        (.content "d") =
      .ok (World.after [.regSub 2, .content "a", .content "b", .content "c", .recv 0, .recv 0,
        .content "d"]) ∧
    ((World.after [.regSub 2, .content "a", .content "b", .content "c", .recv 0, .recv 0,
        .content "d"]).broker.timerChan = true ↔
      0 < (World.after [.regSub 2, .content "a", .content "b", .content "c", .recv 0, .recv 0,
        .content "d"]).broker.cachenum ∨
      (World.after [.regSub 2, .content "a", .content "b", .content "c", .recv 0,
        .recv 0]).broker.timerChan = true) :=
  ⟨rfl, (timer_after_event _ _ (.content "d")
    ⟨[.regSub 2, .content "a", .content "b", .content "c", .recv 0, .recv 0], rfl⟩ rfl).2.2.2.1
    "d" rfl⟩

/-- C4 as stated fails: a subscriber of capacity 0 is registered and its
consumer blocks in a receive on the empty inbox; then `a` is published.  The
inbox has no slot at all, so `|B| + 1 ≤ c - i` is false, yet `a` does not
become the last element of the backlog: the send hands it to the blocked
consumer, the backlog stays empty and the counter stays at 0. -/
theorem publish_reaches_blocked_receiver :
    run World.init [.regSub 0, .park 0, .content "a"] =
        .ok (World.after [.regSub 0, .park 0, .content "a"]) ∧
      (∃ p q, lookupSub 0 (World.after [.regSub 0, .park 0]).broker.subscribers = some p ∧
        lookupSub 0 (World.after [.regSub 0, .park 0, .content "a"]).broker.subscribers =
          some q ∧
        p.1.cap = 0 ∧ p.1.buf = [] ∧ p.2 = [] ∧ p.1.waiting = 1 ∧
        ¬ p.2.length + 1 ≤ p.1.cap - p.1.buf.length ∧
        q.2 = [] ∧ q.2.getLast? ≠ some "a" ∧ q.1.buf = [] ∧ q.1.taken = ["a"]) ∧
      (World.after [.regSub 0, .park 0, .content "a"]).broker.cachenum = 0 :=
  ⟨rfl, ⟨_, _, rfl, rfl, rfl, rfl, rfl, rfl, by decide, rfl, by decide, rfl, rfl⟩, rfl⟩

/-- C4, amended: on a registry of open inboxes on which consumers are blocked
only while the inbox is empty, `onContentPush` returns, and for every
registered handle with inbox `p.1`, backlog `p.2` and `p.1.waiting` blocked
consumers: if the whole backlog and one more message fit into the free slots
and the blocked receives together, the backlog ends empty and the backlog
followed by `msg` has been handed over in order, the first ones to the blocked
consumers and the others to the end of the inbox; otherwise only the head of
the backlog that fitted has been handed over and `msg` is the last element of
what is left of the backlog.  `msg` ends up last of what was handed over, with
an empty backlog, exactly in the first case.  With no blocked consumer this is
the claim as stated. -/
theorem publish_postcondition (broker : ChanBroker) (msg : Content) (h : Nat) (p : Entry)
    (ho : AllOpen broker.subscribers) (hpe : ParkedEmpty broker.subscribers)
    (hl : lookupSub h broker.subscribers = some p) :
    ∃ b1 q, onContentPush broker msg = some b1 ∧ lookupSub h b1.subscribers = some q ∧
      (p.2.length + 1 ≤ p.1.waiting + (p.1.cap - p.1.buf.length) →
        q.2 = [] ∧
        q.1.taken = p.1.taken ++ (p.2 ++ [msg]).take (min (p.2.length + 1) p.1.waiting) ∧
        q.1.buf = p.1.buf ++ (p.2 ++ [msg]).drop (min (p.2.length + 1) p.1.waiting) ∧
        q.1.taken ++ q.1.buf = p.1.taken ++ p.1.buf ++ p.2 ++ [msg]) ∧
      (¬ p.2.length + 1 ≤ p.1.waiting + (p.1.cap - p.1.buf.length) →
        flushCount p.1 p.2 = p.1.waiting + (p.1.cap - p.1.buf.length) ∧
        q.1.taken = p.1.taken ++ p.2.take p.1.waiting ∧
        q.1.buf = p.1.buf ++ (p.2.take (flushCount p.1 p.2)).drop p.1.waiting ∧
        q.1.taken ++ q.1.buf = p.1.taken ++ p.1.buf ++ p.2.take (flushCount p.1 p.2) ∧
        q.2 = p.2.drop (flushCount p.1 p.2) ++ [msg] ∧ q.2.getLast? = some msg) ∧
      ((q.2 = [] ∧ (q.1.taken ++ q.1.buf).getLast? = some msg) ↔
        p.2.length + 1 ≤ p.1.waiting + (p.1.cap - p.1.buf.length)) ∧
      (p.1.waiting = 0 →
        (p.2.length + 1 ≤ p.1.cap - p.1.buf.length →
          q.1.buf = p.1.buf ++ p.2 ++ [msg] ∧ q.2 = []) ∧
        (¬ p.2.length + 1 ≤ p.1.cap - p.1.buf.length →
          q.1.buf = p.1.buf ++ p.2.take (min p.2.length (p.1.cap - p.1.buf.length)) ∧
          q.2 = p.2.drop (min p.2.length (p.1.cap - p.1.buf.length)) ++ [msg] ∧
          q.2.getLast? = some msg) ∧
        ((q.2 = [] ∧ q.1.buf.getLast? = some msg) ↔
          p.2.length + 1 ≤ p.1.cap - p.1.buf.length)) := by
  obtain ⟨n, h1, _⟩ := onContentPush_eq broker msg ho
  have hp : 0 < p.1.waiting → p.1.buf = [] := hpe p (lookupSub_some hl).1
  have hfitc := fits_iff_count p msg
  have hyes : fits p →
      (pushEntry msg p).2 = [] ∧
      (pushEntry msg p).1.taken =
        p.1.taken ++ (p.2 ++ [msg]).take (min (p.2.length + 1) p.1.waiting) ∧
      (pushEntry msg p).1.buf =
        p.1.buf ++ (p.2 ++ [msg]).drop (min (p.2.length + 1) p.1.waiting) ∧
      (pushEntry msg p).1.taken ++ (pushEntry msg p).1.buf =
        p.1.taken ++ p.1.buf ++ p.2 ++ [msg] := by
    intro hfit
    have hk := hfitc.1 hfit
    have hh := flushEntry_handed (p.1, p.2 ++ [msg]) hp
    simp only [hk] at hh
    have hall : (p.2 ++ [msg]).take (p.2.length + 1) = p.2 ++ [msg] :=
      List.take_of_length_le (by simp)
    rw [hall] at hh
    refine ⟨?_, ?_, ?_, ?_⟩
    · simp only [pushEntry, hfit, if_true, flushEntry, hk]
      exact List.drop_eq_nil_of_le (by simp)
    · simp only [pushEntry, hfit, if_true, flushEntry, directCount, List.length_append,
        List.length_cons, List.length_nil]
    · simp only [pushEntry, hfit, if_true, flushEntry, directCount, hk, hall,
        List.length_append, List.length_cons, List.length_nil]
    · simp only [pushEntry, hfit, if_true]
      rw [hh, List.append_assoc, List.append_assoc, List.append_assoc]
  have hno : ¬ fits p →
      flushCount p.1 p.2 = p.1.waiting + (p.1.cap - p.1.buf.length) ∧
      (pushEntry msg p).1.taken = p.1.taken ++ p.2.take p.1.waiting ∧
      (pushEntry msg p).1.buf =
        p.1.buf ++ (p.2.take (flushCount p.1 p.2)).drop p.1.waiting ∧
      (pushEntry msg p).1.taken ++ (pushEntry msg p).1.buf =
        p.1.taken ++ p.1.buf ++ p.2.take (flushCount p.1 p.2) ∧
      (pushEntry msg p).2 = p.2.drop (flushCount p.1 p.2) ++ [msg] ∧
      (pushEntry msg p).2.getLast? = some msg := by
    intro hfit
    have hlt : p.1.waiting + (p.1.cap - p.1.buf.length) ≤ p.2.length := by
      simp only [fits] at hfit
      omega
    have hd : directCount p.1 p.2 = p.1.waiting := by
      simp only [directCount]
      omega
    refine ⟨?_, ?_, ?_, ?_, ?_, ?_⟩
    · simp only [flushCount]
      omega
    · simp only [pushEntry, hfit, if_false, flushEntry, hd]
    · simp only [pushEntry, hfit, if_false, flushEntry, hd]
    · simp only [pushEntry, hfit, if_false]
      exact flushEntry_handed p hp
    · simp only [pushEntry, hfit, if_false, flushEntry]
    · simp only [pushEntry, hfit, if_false, List.getLast?_append, List.getLast?_singleton]
      rfl
  refine ⟨_, pushEntry msg p, h1, ?_, ?_, ?_, ?_, ?_⟩
  · simp [contentPushed, lookupSub_map h _ (pushEntry_id msg), hl]
  · exact fun hfit => hyes hfit
  · exact fun hfit => hno hfit
  · constructor
    · rintro ⟨hnil, _⟩
      by_contra hfit
      rw [(hno hfit).2.2.2.2.1] at hnil
      simp at hnil
    · intro hfit
      refine ⟨(hyes hfit).1, ?_⟩
      rw [(hyes hfit).2.2.2]
      simp
  · intro hw0
    have hiff : fits p ↔ p.2.length + 1 ≤ p.1.cap - p.1.buf.length := by
      simp only [fits, hw0, Nat.zero_add]
    have hfc : flushCount p.1 p.2 = min p.2.length (p.1.cap - p.1.buf.length) := by
      simp only [flushCount, hw0, Nat.zero_add]
    refine ⟨fun hfit => ?_, fun hfit => ?_, ?_⟩
    · obtain ⟨a1, _, a3, _⟩ := hyes (hiff.2 hfit)
      refine ⟨?_, a1⟩
      rw [a3, hw0]
      simp
    · obtain ⟨_, _, a3, _, a5, a6⟩ := hno (fun hf => hfit (hiff.1 hf))
      rw [hw0, List.drop_zero, hfc] at a3
      rw [hfc] at a5
      exact ⟨a3, a5, a6⟩
    · constructor
      · rintro ⟨hnil, _⟩
        by_contra hfit
        rw [(hno (fun hf => hfit (hiff.1 hf))).2.2.2.2.1] at hnil
        simp at hnil
      · intro hfit
        obtain ⟨a1, _, a3, _⟩ := hyes (hiff.2 hfit)
        refine ⟨a1, ?_⟩
        rw [a3, hw0]
        simp

/-- Witness for the amended C4: capacity 1, one consumer blocked on the empty
inbox, `a` in the backlog, `b` published: `a` goes to the consumer and `b`
into the inbox. -/
theorem publish_postcondition_witness :
    ∃ b1 q, onContentPush
        { stop := { pending := false, closed := false }
          subscribers :=
            [({ id := 0, cap := 1, buf := [], closed := false, taken := [], waiting := 1 }, ["a"])]
          cachenum := 1
          timerChan := true } "b" = some b1 ∧
      lookupSub 0 b1.subscribers = some q ∧
      ((["a"] : List Content).length + 1 ≤ 1 + (1 - ([] : List Content).length) →
        q.2 = [] ∧ q.1.taken = [] ++ (["a"] ++ ["b"]).take (min ((["a"] : List Content).length + 1) 1) ∧
        q.1.buf = [] ++ (["a"] ++ ["b"]).drop (min ((["a"] : List Content).length + 1) 1)) := by
  obtain ⟨b1, q, h1, h2, h3, _⟩ := publish_postcondition
    { stop := { pending := false, closed := false }
      subscribers :=
        [({ id := 0, cap := 1, buf := [], closed := false, taken := [], waiting := 1 }, ["a"])]
      cachenum := 1
      timerChan := true } "b" 0
    ({ id := 0, cap := 1, buf := [], closed := false, taken := [], waiting := 1 }, ["a"])
    (by intro p hp; simp only [List.mem_singleton] at hp; subst hp; rfl)
    (by intro p hp _; simp only [List.mem_singleton] at hp; subst hp; rfl) rfl
  exact ⟨b1, q, h1, h2, fun hfit => ⟨(h3 hfit).1, (h3 hfit).2.1, (h3 hfit).2.2.1⟩⟩

/-- C5 as stated fails: a subscriber of capacity 0 has `a` and `b` in its
backlog when its consumer blocks in a receive on the inbox.  The inbox has no
free slot, so `k = min(|B|, f)` is 0, yet the flush pass of the timer event
hands `a` to the blocked consumer: the backlog loses its first element and the
counter goes from 2 to 1. -/
theorem flush_reaches_blocked_receiver :
    run World.init [.regSub 0, .content "a", .content "b", .park 0, .timer] =
        .ok (World.after [.regSub 0, .content "a", .content "b", .park 0, .timer]) ∧
      (∃ p q,
        lookupSub 0 (World.after [.regSub 0, .content "a", .content "b",
          .park 0]).broker.subscribers = some p ∧
        lookupSub 0 (World.after [.regSub 0, .content "a", .content "b", .park 0,
          .timer]).broker.subscribers = some q ∧
        p.2 = ["a", "b"] ∧ p.1.buf = [] ∧ p.1.waiting = 1 ∧
        min p.2.length (p.1.cap - p.1.buf.length) = 0 ∧
        q.2 = ["b"] ∧ q.2 ≠ p.2.drop 0 ∧ q.1.taken = ["a"] ∧ q.1.buf = []) ∧
      (World.after [.regSub 0, .content "a", .content "b", .park 0]).broker.cachenum = 2 ∧
      (World.after [.regSub 0, .content "a", .content "b", .park 0,
        .timer]).broker.cachenum = 1 ∧
      flush { id := 0, cap := 0, buf := [], closed := false, taken := [], waiting := 1 }
          ["a", "b"] 2 =
        some ({ id := 0, cap := 0, buf := [], closed := false, taken := ["a"], waiting := 0 },
          ["b"], 1) :=
  ⟨rfl, ⟨_, _, rfl, rfl, rfl, rfl, rfl, rfl, rfl, by decide, rfl, rfl⟩, rfl, rfl, rfl⟩

/-- C5, amended: for an open inbox `sub` with `sub.waiting` blocked consumers,
backlog `clist` and a counter `n` that covers what is handed over, the flush
loop returns; with `k = min |clist| (waiting + (cap - |buf|))` it hands over
the first `k` backlog elements in order, the first `min |clist| waiting` of
them to the blocked consumers and the others to the end of the inbox, leaves
the backlog without its first `k` elements, lowers the counter by exactly `k`,
and changes nothing else of the channel.  When something is left in the
backlog no consumer is blocked any more and the inbox is full: the pass
stopped at the first hand-off that was rejected.  With no blocked consumer this
is the claim as stated. -/
theorem flush_postcondition (sub : Subscriber) (clist : List Content) (n : Nat)
    (hc : sub.closed = false) (hn : flushCount sub clist ≤ n) :
    ∃ sub1 clist1 n1, flush sub clist n = some (sub1, clist1, n1) ∧
      flushCount sub clist = min clist.length (sub.waiting + (sub.cap - sub.buf.length)) ∧
      sub1.taken = sub.taken ++ clist.take (min clist.length sub.waiting) ∧
      sub1.buf =
        sub.buf ++ (clist.take (flushCount sub clist)).drop (min clist.length sub.waiting) ∧
      sub1.waiting = sub.waiting - min clist.length sub.waiting ∧
      clist1 = clist.drop (flushCount sub clist) ∧
      n1 + flushCount sub clist = n ∧
      sub1 = { sub with buf := sub1.buf, taken := sub1.taken, waiting := sub1.waiting } ∧
      (clist1 ≠ [] → ∀ v, trySend sub1 v = .full) ∧
      (sub.waiting = 0 →
        flushCount sub clist = min clist.length (sub.cap - sub.buf.length) ∧
        sub1.buf = sub.buf ++ clist.take (flushCount sub clist) ∧
        sub1 = { sub with buf := sub1.buf }) := by
  refine ⟨_, _, _, flush_eq clist sub n hc, rfl, rfl, rfl, rfl, rfl, by omega, rfl, ?_, ?_⟩
  · intro hne v
    have hne : clist.drop (flushCount sub clist) ≠ [] := hne
    have hlen : flushCount sub clist < clist.length := by
      by_contra hge
      exact hne (List.drop_eq_nil_of_le (by omega))
    have hk : flushCount sub clist = sub.waiting + (sub.cap - sub.buf.length) := by
      simp only [flushCount] at hlen ⊢
      omega
    have hd : directCount sub clist = sub.waiting := by
      simp only [directCount]
      omega
    have hw : ¬ 0 < sub.waiting - directCount sub clist := by omega
    have hfull : ¬ (sub.buf ++ (clist.take (flushCount sub clist)).drop
        (directCount sub clist)).length < sub.cap := by
      simp only [List.length_append, List.length_drop, List.length_take]
      omega
    simp only [trySend, flushEntry, hc, Bool.false_eq_true, if_false, hw, hfull]
  · intro hw0
    have hd : min clist.length sub.waiting = 0 := by omega
    refine ⟨by simp only [flushCount, hw0, Nat.zero_add], ?_, ?_⟩
    · simp only [flushEntry, directCount, hd, List.drop_zero]
    · obtain ⟨id, cap, buf, closed, taken, waiting⟩ := sub
      simp only at hw0
      subst hw0
      simp [flushEntry, directCount]

/-- Witness for the amended C5: capacity 1, empty inbox with one blocked
consumer, backlog `a`, `b`, `c`: `a` goes to the consumer, `b` into the inbox,
`c` stays. -/
theorem flush_postcondition_witness :
    ∃ sub1 clist1 n1,
      flush { id := 0, cap := 1, buf := [], closed := false, taken := [], waiting := 1 }
          ["a", "b", "c"] 3 = some (sub1, clist1, n1) ∧
      sub1.taken = ["a"] ∧ sub1.buf = ["b"] ∧ sub1.waiting = 0 ∧ clist1 = ["c"] ∧
      n1 + 2 = 3 := by
  obtain ⟨sub1, clist1, n1, h1, _, h3, h4, h5, h6, h7, _⟩ := flush_postcondition
    { id := 0, cap := 1, buf := [], closed := false, taken := [], waiting := 1 }
    ["a", "b", "c"] 3 rfl (by decide)
  exact ⟨sub1, clist1, n1, h1, h3, h4, h5, h6, h7⟩

/-- C6 (independence of subscribers): take two brokers, each with a registry
of open inboxes, that hold the same entry `p` under the handle `h` and are
otherwise arbitrary.  Both `onContentPush` calls return, and both leave under
`h` the same entry, `pushEntry msg p`, which is computed from `p` and `msg`
alone; both `onTimerPush` calls return and leave `flushEntry p` under `h`. -/
theorem subscriber_independence (b1 b2 : ChanBroker) (msg : Content) (h : Nat) (p : Entry)
    (ho1 : AllOpen b1.subscribers) (ho2 : AllOpen b2.subscribers)
    (hl1 : lookupSub h b1.subscribers = some p) (hl2 : lookupSub h b2.subscribers = some p) :
    (∃ c1 c2, onContentPush b1 msg = some c1 ∧ onContentPush b2 msg = some c2 ∧
        lookupSub h c1.subscribers = some (pushEntry msg p) ∧
        lookupSub h c2.subscribers = some (pushEntry msg p)) ∧
      (∃ t1 t2, onTimerPush b1 = some t1 ∧ onTimerPush b2 = some t2 ∧
        lookupSub h t1.subscribers = some (flushEntry p) ∧
        lookupSub h t2.subscribers = some (flushEntry p)) := by
  obtain ⟨n1, hc1, _⟩ := onContentPush_eq b1 msg ho1
  obtain ⟨n2, hc2, _⟩ := onContentPush_eq b2 msg ho2
  obtain ⟨m1, ht1, _⟩ := onTimerPush_eq b1 ho1
  obtain ⟨m2, ht2, _⟩ := onTimerPush_eq b2 ho2
  refine ⟨⟨_, _, hc1, hc2, ?_, ?_⟩, ⟨_, _, ht1, ht2, ?_, ?_⟩⟩
  · simp [contentPushed, lookupSub_map h _ (pushEntry_id msg), hl1]
  · simp [contentPushed, lookupSub_map h _ (pushEntry_id msg), hl2]
  · simp [timerPushed, lookupSub_map h _ flushEntry_id, hl1]
  · simp [timerPushed, lookupSub_map h _ flushEntry_id, hl2]

/-- Witness for C6: the subscriber `0` of capacity 1 alone, and next to a
subscriber of capacity 0 whose backlog never drains. -/
theorem subscriber_independence_witness :
    ∃ c1 c2,
      onContentPush
        { stop := { pending := false, closed := false }
          subscribers := [({ id := 0, cap := 1, buf := [], closed := false, taken := [] }, [])]
          cachenum := 0
          timerChan := false } "m" = some c1 ∧
      onContentPush
        { stop := { pending := false, closed := false }
          subscribers :=
            [({ id := 1, cap := 0, buf := [], closed := false, taken := [] }, ["x", "y"]),
             ({ id := 0, cap := 1, buf := [], closed := false, taken := [] }, [])]
          cachenum := 2
          timerChan := true } "m" = some c2 ∧
      lookupSub 0 c1.subscribers =
        some ({ id := 0, cap := 1, buf := ["m"], closed := false, taken := [] }, []) ∧
      lookupSub 0 c2.subscribers =
        some ({ id := 0, cap := 1, buf := ["m"], closed := false, taken := [] }, []) :=
  (subscriber_independence
    { stop := { pending := false, closed := false }
      subscribers := [({ id := 0, cap := 1, buf := [], closed := false, taken := [] }, [])]
      cachenum := 0
      timerChan := false }
    { stop := { pending := false, closed := false }
      subscribers :=
        [({ id := 1, cap := 0, buf := [], closed := false, taken := [] }, ["x", "y"]),
         ({ id := 0, cap := 1, buf := [], closed := false, taken := [] }, [])]
      cachenum := 2
      timerChan := true }
    "m" 0 ({ id := 0, cap := 1, buf := [], closed := false, taken := [] }, [])
    (by intro p hp; simp only [List.mem_singleton] at hp; subst hp; rfl)
    (by
      intro p hp
      simp only [List.mem_cons, List.mem_singleton, List.not_mem_nil, or_false] at hp
      rcases hp with rfl | rfl <;> rfl)
    rfl rfl).1

/-- C7, evaluated where it fails, in two ways.  First: `uintSize - 1` rounds
of register, publish, unregister leave the registry empty and the counter at
the largest `uint`; a subscriber of capacity 0 is registered, `a` is published
into its backlog, where `cachenum++` wraps around to 0, and the stop request is
handled.  The broker is draining with `a` in the backlog of the registered
subscriber, a flush would leave `a` there, and yet the next stop event finds
the counter at 0, closes the inbox and makes the goroutine return: `a` is
discarded.  Second: a subscriber of capacity 0 has `a` in its backlog and two
`StopBroker` calls are accepted, the second one while the goroutine receives
the first stop value.  The broker is draining, and the next stop event panics
in the second `close(broker.stop)` instead of keeping the broker draining. -/
theorem drain_discards_backlog :
    (∃ w1 w2, run World.init
        (staleRounds 0 (uintSize - 1) ++ [.regSub 0, .content "a", .stopBroker, .stop]) =
          .ok w1 ∧
      w1.lifecycle = .Draining ∧
      w1.broker.subscribers =
        [({ id := uintSize - 1, cap := 0, buf := [], closed := false, taken := [] },
          ["a"])] ∧
      (flushEntry ({ id := uintSize - 1, cap := 0, buf := [], closed := false, taken := [] },
        ["a"])).2 = ["a"] ∧
      w1.broker.cachenum = 0 ∧
      step w1 .stop = .ok w2 ∧ w2.lifecycle = .Stopped ∧ w2.broker.subscribers = [] ∧
      { id := uintSize - 1, cap := 0, buf := [], closed := true, taken := [] } ∈ w2.released) ∧
    (run World.init [.regSub 0, .content "a", .stopBroker, .stopHandOff] =
        .ok (World.after [.regSub 0, .content "a", .stopBroker, .stopHandOff]) ∧
      (World.after [.regSub 0, .content "a", .stopBroker, .stopHandOff]).lifecycle =
        .Draining ∧
      lookupSub 0
          (World.after [.regSub 0, .content "a", .stopBroker, .stopHandOff]).broker.subscribers =
        some ({ id := 0, cap := 0, buf := [], closed := false, taken := [] }, ["a"]) ∧
      step (World.after [.regSub 0, .content "a", .stopBroker, .stopHandOff]) .stop =
        .error .panic) := by
  refine ⟨?_, rfl, rfl, rfl, rfl⟩
  obtain ⟨w0, h0, hex, hs, hc, hst, hf, ht⟩ := stale_wrap_state
  have hn : (w0.broker.cachenum + 1) % uintSize = 0 := by rw [hc]; exact uintSize_wrap
  rw [run_append _ _ _ _ h0]
  obtain ⟨⟨stop, subs, cachenum, timerChan⟩, exited, released, fresh⟩ := w0
  simp only at hex hs hst hf ht hn
  subst hex hs hst ht
  rw [← hf]
  simp [run, step, deleteSub, onContentPush, pushAll, pushSub, flush, trySend, lookupSub,
    onTimerPush, flushAll, StopBroker, onStop, drainSweep, closeAll, closeSub,
    World.lifecycle, flushEntry, flushCount, directCount, hn]

/-- C8, evaluated where it fails: a subscriber of capacity 0 is registered,
`a` is published into its backlog, the subscriber is unregistered, and the
stop request is handled.  The broker is draining with an empty registry, yet
`cachenum` is still 1, so the stop case never takes the branch that returns:
after any number of further stop events the broker is still draining. -/
theorem drain_stuck_after_unregister :
    run World.init [.regSub 0, .content "a", .unRegSub 0, .stopBroker, .stop] =
        .ok (World.after [.regSub 0, .content "a", .unRegSub 0, .stopBroker, .stop]) ∧
      (World.after [.regSub 0, .content "a", .unRegSub 0, .stopBroker, .stop]).lifecycle =
        .Draining ∧
      (World.after [.regSub 0, .content "a", .unRegSub 0, .stopBroker,
        .stop]).broker.subscribers = [] ∧
      (World.after [.regSub 0, .content "a", .unRegSub 0, .stopBroker,
        .stop]).broker.cachenum = 1 ∧
      ∀ k : Nat, ∃ w1,
        run (World.after [.regSub 0, .content "a", .unRegSub 0, .stopBroker, .stop])
          (List.replicate k .stop) = .ok w1 ∧ w1.lifecycle = .Draining := by
  refine ⟨rfl, rfl, rfl, rfl, fun k =>
    ⟨World.after [.regSub 0, .content "a", .unRegSub 0, .stopBroker, .stop], ?_, rfl⟩⟩
  induction k with
  | zero => rfl
  | succ k ih =>
    have hs : step (World.after [.regSub 0, .content "a", .unRegSub 0, .stopBroker, .stop]) .stop =
        .ok (World.after [.regSub 0, .content "a", .unRegSub 0, .stopBroker, .stop]) := rfl
    simp only [List.replicate_succ, run, hs]
    exact ih

/-- C9 as stated fails: on a fresh broker, with no subscriber and the counter
at 0, the stop request is accepted and handled; the broker is then draining,
not stopped. -/
theorem stop_request_leaves_draining :
    run World.init [.stopBroker, .stop] = .ok (World.after [.stopBroker, .stop]) ∧
      (World.after [.stopBroker, .stop]).lifecycle = .Draining ∧
      (World.after [.stopBroker, .stop]).lifecycle ≠ .Stopped :=
  ⟨rfl, rfl, by decide⟩

/-- C9, amended: from a running broker with an empty registry, the counter at
0 and a stop request buffered in the stop channel, the stop event closes the
stop channel, runs `onTimerPush` and the sweep over the empty registry, and
leaves the broker draining; the next stop event, which needs no timer event
before it, makes the goroutine return. -/
theorem stop_on_empty_broker (w : World) (hrun : w.lifecycle = .Running)
    (hp : w.broker.stop.pending = true) (hs : w.broker.subscribers = [])
    (hz : w.broker.cachenum = 0) :
    ∃ w1 w2, step w .stop = .ok w1 ∧ w1.lifecycle = .Draining ∧
      onTimerPush (stopClosed w).broker = some w1.broker ∧
      step w1 .stop = .ok w2 ∧ w2.lifecycle = .Stopped ∧
      w2.broker.subscribers = [] ∧ w2.released = w.released := by
  obtain ⟨⟨⟨pending, closed⟩, subs, cachenum, timerChan⟩, exited, released, fresh⟩ := w
  simp only at hp hs hz
  subst hp hs hz
  have hex : exited = false := by
    cases exited
    · rfl
    · simp [World.lifecycle] at hrun
  subst hex
  have hc : closed = false := by
    cases closed
    · rfl
    · simp [World.lifecycle] at hrun
  subst hc
  exact ⟨_, _, rfl, rfl, rfl, rfl, rfl, rfl, by simp⟩

/-- Witness for the amended C9: the fresh broker after `StopBroker`. -/
theorem stop_on_empty_broker_witness :
    ∃ w1 w2, step (World.after [.stopBroker]) .stop = .ok w1 ∧ w1.lifecycle = .Draining ∧
      onTimerPush (stopClosed (World.after [.stopBroker])).broker = some w1.broker ∧
      step w1 .stop = .ok w2 ∧ w2.lifecycle = .Stopped ∧
      w2.broker.subscribers = [] ∧ w2.released = (World.after [.stopBroker]).released :=
  stop_on_empty_broker (World.after [.stopBroker]) rfl rfl rfl rfl

/-- C10 (unregister of a present handle): in a reachable state where `h` is
registered with entry `p`, the broker handles the unregister event; afterwards
the registry is the old one without the entry of `h`, `h` is no longer found,
every other handle is found with the entry it had, and the inbox of `h`, closed
and with its buffered values untouched, has joined the released inboxes.  The
backlog `p.2` is kept nowhere, whatever its length. -/
theorem unregister_present (w : World) (h : Nat) (p : Entry) (hw : Reachable w)
    (hl : lookupSub h w.broker.subscribers = some p) :
    ∃ w1, step w (.unRegSub h) = .ok w1 ∧
      w1.broker.subscribers = w.broker.subscribers.filter (fun q => q.1.id != h) ∧
      lookupSub h w1.broker.subscribers = none ∧
      (∀ h1, h1 ≠ h → lookupSub h1 w1.broker.subscribers = lookupSub h1 w.broker.subscribers) ∧
      p.1.closed = false ∧
      w1.released = w.released ++ [{ p.1 with closed := true }] ∧
      subIds w1.broker.subscribers = (subIds w.broker.subscribers).erase h := by
  have hwf := hw.wf
  have hex : w.exited = false := by
    cases he : w.exited
    · rfl
    · have := (hwf.afterExit he).1
      rw [this] at hl
      cases hl
  refine ⟨_, unRegSub_eq w hwf hex h p hl, rfl, ?_, ?_, hwf.allOpen p (lookupSub_some hl).1,
    rfl, ?_⟩
  · exact lookupSub_none.2 (not_mem_subIds_deleteSub h _)
  · intro h1 hne
    exact lookupSub_deleteSub_ne h h1 hne _
  · exact subIds_deleteSub h _ hwf.nodup

/-- Witness for C10: two subscribers of capacity 0, `a` published into both
backlogs, the first one unregistered. -/
theorem unregister_present_witness :
    ∃ w1, step (World.after [.regSub 0, .regSub 0, .content "a"]) (.unRegSub 0) = .ok w1 ∧
      lookupSub 0 w1.broker.subscribers = none ∧
      lookupSub 1 w1.broker.subscribers =
        lookupSub 1 (World.after [.regSub 0, .regSub 0, .content "a"]).broker.subscribers ∧
      w1.released = [{ id := 0, cap := 0, buf := [], closed := true, taken := [] }] := by
  obtain ⟨w1, h1, _, h3, h4, _, h6, _⟩ := unregister_present
    (World.after [.regSub 0, .regSub 0, .content "a"]) 0
    ({ id := 0, cap := 0, buf := [], closed := false, taken := [] }, ["a"])
    ⟨[.regSub 0, .regSub 0, .content "a"], rfl⟩ rfl
  exact ⟨w1, h1, h3, h4 1 (by decide), h6⟩

/-- C11 (unregister of an absent handle): while the broker goroutine runs, the
unregister event for a handle that is not in the registry is handled and
leaves the whole state as it was: registry, inboxes, backlogs, counter,
timer and the released inboxes; nothing is closed.  In every state, two
unregister events for the same handle in a row have the outcome of one. -/
theorem unregister_absent (w : World) (h : Nat) :
    (w.exited = false → lookupSub h w.broker.subscribers = none →
      step w (.unRegSub h) = .ok w) ∧
    run w [.unRegSub h, .unRegSub h] = run w [.unRegSub h] := by
  have hnoop : ∀ w0 : World, w0.exited = false →
      lookupSub h w0.broker.subscribers = none → step w0 (.unRegSub h) = .ok w0 := by
    intro w0 hex hl
    simp [step, hex, hl]
  refine ⟨hnoop w, ?_⟩
  cases hs : step w (.unRegSub h) with
  | error f => simp [run, hs]
  | ok w1 =>
    have h1 : step w1 (.unRegSub h) = .ok w1 := by
      by_cases hex : w.exited = true
      · simp [step, hex] at hs
      · have hex : w.exited = false := by simpa using hex
        cases hl : lookupSub h w.broker.subscribers with
        | none =>
          rw [hnoop w hex hl] at hs
          cases hs
          exact hnoop w hex hl
        | some p =>
          obtain ⟨sub, clist⟩ := p
          simp only [step, hex, hl, Bool.false_eq_true, if_false] at hs
          split at hs
          · cases hs
          · cases hs
            exact hnoop _ rfl (lookupSub_none.2 (not_mem_subIds_deleteSub h _))
    simp [run, hs, h1]

/-- Witness for C11: the handle 0 was registered and unregistered, the handle
7 was never registered. -/
theorem unregister_absent_witness :
    step (World.after [.regSub 0, .content "a", .unRegSub 0]) (.unRegSub 0) =
        .ok (World.after [.regSub 0, .content "a", .unRegSub 0]) ∧
      step (World.after [.regSub 0, .content "a", .unRegSub 0]) (.unRegSub 7) =
        .ok (World.after [.regSub 0, .content "a", .unRegSub 0]) :=
  ⟨(unregister_absent (World.after [.regSub 0, .content "a", .unRegSub 0]) 0).1 rfl rfl,
   (unregister_absent (World.after [.regSub 0, .content "a", .unRegSub 0]) 7).1 rfl rfl⟩

/-- On an empty registry, with the timer armed whenever the counter is
positive, `onContentPush` leaves the broker as it is. -/
theorem onContentPush_empty (broker : ChanBroker) (c : Content) (hs : broker.subscribers = [])
    (ht : 0 < broker.cachenum → broker.timerChan = true) :
    onContentPush broker c = some broker := by
  obtain ⟨stop, subs, cachenum, timerChan⟩ := broker
  simp only at hs ht
  subst hs
  simp only [onContentPush, pushAll]
  by_cases hpos : 0 < cachenum
  · simp [ht hpos]
  · simp [hpos]

/-- C12, evaluated where it fails: a subscriber of capacity 0 is registered,
`a` is published into its backlog and the subscriber is unregistered.  The
registry of this reachable state is empty and `cachenum` is 1.  Publishing `b`
now is handled, discards `b` and changes no state, but the counter is 1
afterwards, not 0. -/
theorem publish_empty_registry_stale_count :
    run World.init [.regSub 0, .content "a", .unRegSub 0] =
        .ok (World.after [.regSub 0, .content "a", .unRegSub 0]) ∧
      (World.after [.regSub 0, .content "a", .unRegSub 0]).broker.subscribers = [] ∧
      step (World.after [.regSub 0, .content "a", .unRegSub 0]) (.content "b") =
        .ok (World.after [.regSub 0, .content "a", .unRegSub 0]) ∧
      (World.after [.regSub 0, .content "a", .unRegSub 0, .content "b"]).broker.cachenum = 1 ∧
      (World.after [.regSub 0, .content "a", .unRegSub 0, .content "b"]).broker.cachenum ≠ 0 :=
  ⟨rfl, rfl, rfl, rfl, by decide⟩

/-- C13, evaluated where it fails: on the broker that was stopped right after
its creation the goroutine has returned, and `PubContent` still puts the
message into `contents` and returns `nil`; nobody will take it.  With
`contents` full it returns `ErrPublishTimeOut`.  No call of `PubContent`, in
any state, returns `ErrBrokerExit`. -/
theorem pubContent_after_stopped :
    (World.after [.stopBroker, .stop, .stop]).lifecycle = .Stopped ∧
      PubContent ⟨World.after [.stopBroker, .stop, .stop], []⟩ "a" =
        (⟨World.after [.stopBroker, .stop, .stop], ["a"]⟩, none) ∧
      System.take ⟨World.after [.stopBroker, .stop, .stop], ["a"]⟩ = .error .notReady ∧
      (PubContent ⟨World.after [.stopBroker, .stop, .stop], List.replicate 16 "x"⟩ "a").2 =
        some .ErrPublishTimeOut ∧
      ∀ (s : System) (c : Content), (PubContent s c).2 ≠ some .ErrBrokerExit := by
  refine ⟨rfl, rfl, rfl, rfl, ?_⟩
  intro s c
  unfold PubContent
  split <;> simp

/-- C14, evaluated where it fails: after the first stop request has been
handled the stop channel is closed, so `StopBroker` called on the draining
broker sends on a closed channel and panics; the same holds once the
goroutine has returned.  `StopBroker` panics exactly when the stop channel is
closed. -/
theorem stopBroker_panics_after_stop :
    (World.after [.stopBroker, .stop]).lifecycle = .Draining ∧
      StopBroker (World.after [.stopBroker, .stop]).broker = none ∧
      step (World.after [.stopBroker, .stop]) .stopBroker = .error .panic ∧
      (World.after [.stopBroker, .stop, .stop]).lifecycle = .Stopped ∧
      StopBroker (World.after [.stopBroker, .stop, .stop]).broker = none ∧
      step (World.after [.stopBroker, .stop, .stop]) .stopBroker = .error .panic ∧
      ∀ broker : ChanBroker, StopBroker broker = none ↔ broker.stop.closed = true := by
  refine ⟨rfl, rfl, rfl, rfl, rfl, rfl, ?_⟩
  intro broker
  unfold StopBroker
  split
  · simp [*]
  · split <;> simp [*]

/-- C15 (the concrete scenario): a fresh broker, one subscriber of capacity
1.  After `a` is published it is in the inbox and the counter is 0.  After `b`
is published the inbox is `a`, the backlog is `b`, the counter is 1 and the
timer is armed.  After the consumer has read `a`, one timer event puts `b`
into the inbox and leaves the backlog empty, the counter at 0 and the timer
disarmed; the consumer then reads `b`. -/
theorem concrete_scenario :
    run World.init [.regSub 1, .content "a"] = .ok
      { broker :=
          { stop := { pending := false, closed := false }
            subscribers :=
              [({ id := 0, cap := 1, buf := ["a"], closed := false, taken := [] }, [])]
            cachenum := 0
            timerChan := false }
        exited := false, released := [], fresh := 1 } ∧
    run World.init [.regSub 1, .content "a", .content "b"] = .ok
      { broker :=
          { stop := { pending := false, closed := false }
            subscribers :=
              [({ id := 0, cap := 1, buf := ["a"], closed := false, taken := [] }, ["b"])]
            cachenum := 1
            timerChan := true }
        exited := false, released := [], fresh := 1 } ∧
    run World.init [.regSub 1, .content "a", .content "b", .recv 0, .timer] = .ok
      { broker :=
          { stop := { pending := false, closed := false }
            subscribers :=
              [({ id := 0, cap := 1, buf := ["b"], closed := false, taken := ["a"] }, [])]
            cachenum := 0
            timerChan := false }
        exited := false, released := [], fresh := 1 } ∧
    run World.init [.regSub 1, .content "a", .content "b", .recv 0, .timer, .recv 0] = .ok
      { broker :=
          { stop := { pending := false, closed := false }
            subscribers :=
              [({ id := 0, cap := 1, buf := [], closed := false, taken := ["a", "b"] }, [])]
            cachenum := 0
            timerChan := false }
        exited := false, released := [], fresh := 1 } :=
  ⟨rfl, rfl, rfl, rfl⟩

/-- C16 (inbox closing discipline): in every reachable state every inbox in
the registry is open; every released inbox is closed and out of the registry,
and no identity occurs twice among the released inboxes.  An inbox that a step
adds to the released ones was in the registry before the step, is out of it
after the step, and is closed.  On the registry both handlers return, so no
flush sends on a closed inbox, and every `close` of a registered inbox, alone
or of all of them in a row, succeeds, so no inbox is closed a second time.  If
an event of the broker goroutine or of a consumer panics at all, it is the
stop event that finds the stop channel closed with a value in its slot, the
second `close(broker.stop)`: that panic is not about an inbox. -/
theorem inbox_closing_discipline (w : World) (hw : Reachable w) :
    AllOpen w.broker.subscribers ∧
      (∀ sub ∈ w.released, sub.closed = true ∧ sub.id ∉ subIds w.broker.subscribers) ∧
      (relIds w.released).Nodup ∧
      (∀ e w1, step w e = .ok w1 → ∀ sub ∈ w1.released, sub.id ∉ relIds w.released →
        sub.id ∈ subIds w.broker.subscribers ∧ sub.id ∉ subIds w1.broker.subscribers ∧
          sub.closed = true) ∧
      (∀ c, (onContentPush w.broker c).isSome = true) ∧
      (onTimerPush w.broker).isSome = true ∧
      (∀ p ∈ w.broker.subscribers, (closeSub p.1).isSome = true) ∧
      (closeAll (w.broker.subscribers.map Prod.fst)).isSome = true ∧
      (∀ e, e ≠ .stopBroker → step w e = .error .panic →
        e = .stop ∧ w.broker.stop.pending = true ∧ w.broker.stop.closed = true) := by
  have hwf := hw.wf
  refine ⟨hwf.allOpen, fun sub hs => ⟨hwf.relClosed sub hs, hwf.relOut sub hs⟩,
    hw.released_nodup, ?_, ?_, ?_, ?_, ?_, ?_⟩
  · intro e w1 hs sub hsub hnew
    have hw1 := WF_step w w1 e hwf hs
    rcases (step_released w w1 e hwf hw.released_nodup hs).2 sub hsub with hold | hreg
    · exact absurd hold hnew
    · exact ⟨hreg, hw1.relOut sub hsub, hw1.relClosed sub hsub⟩
  · intro c
    obtain ⟨n, h1, _⟩ := onContentPush_eq w.broker c hwf.allOpen
    simp [h1]
  · obtain ⟨n, h1, _⟩ := onTimerPush_eq w.broker hwf.allOpen
    simp [h1]
  · intro p hp
    simp [closeSub, hwf.allOpen p hp]
  · have hall : ∀ sub ∈ w.broker.subscribers.map Prod.fst, sub.closed = false := by
      intro sub hsub
      obtain ⟨p, hp, rfl⟩ := List.mem_map.1 hsub
      exact hwf.allOpen p hp
    rw [closeAll_eq _ hall]
    rfl
  · intro e he hs
    obtain ⟨h1, _, h3, h4⟩ := step_panic_inv w e hwf he hs
    exact ⟨h1, h3, h4⟩

/-- Witness for C16: two subscribers, one message, the first subscriber
unregistered; the unregister of the second one closes exactly its inbox. -/
theorem inbox_closing_discipline_witness :
    AllOpen (World.after [.regSub 0, .regSub 1, .content "a", .unRegSub 0]).broker.subscribers ∧
      (relIds (World.after [.regSub 0, .regSub 1, .content "a", .unRegSub 0]).released).Nodup ∧
      (∀ sub ∈ (World.after [.regSub 0, .regSub 1, .content "a", .unRegSub 0,
          .unRegSub 1]).released,
        sub.id ∉ relIds (World.after [.regSub 0, .regSub 1, .content "a",
          .unRegSub 0]).released →
        sub.id ∈ subIds (World.after [.regSub 0, .regSub 1, .content "a",
          .unRegSub 0]).broker.subscribers ∧
        sub.id ∉ subIds (World.after [.regSub 0, .regSub 1, .content "a", .unRegSub 0,
          .unRegSub 1]).broker.subscribers ∧
        sub.closed = true) :=
  ⟨(inbox_closing_discipline (World.after [.regSub 0, .regSub 1, .content "a", .unRegSub 0])
      ⟨[.regSub 0, .regSub 1, .content "a", .unRegSub 0], rfl⟩).1,
   (inbox_closing_discipline (World.after [.regSub 0, .regSub 1, .content "a", .unRegSub 0])
      ⟨[.regSub 0, .regSub 1, .content "a", .unRegSub 0], rfl⟩).2.2.1,
   (inbox_closing_discipline (World.after [.regSub 0, .regSub 1, .content "a", .unRegSub 0])
      ⟨[.regSub 0, .regSub 1, .content "a", .unRegSub 0], rfl⟩).2.2.2.1 (.unRegSub 1)
      (World.after [.regSub 0, .regSub 1, .content "a", .unRegSub 0, .unRegSub 1]) rfl⟩

/-- C17 (initial stop): from a reachable running state with a stop request
buffered, the stop event is handled and leaves the broker draining; every
subscriber still in the registry has a non-empty backlog; every subscriber
whose backlog is empty after the flush is out of the registry and its inbox,
holding what was flushed, is among the released (closed) ones; every
subscriber whose backlog is not empty after the flush is still registered
with its flushed entry. -/
theorem initial_stop_postcondition (w : World) (hw : Reachable w)
    (hrun : w.lifecycle = .Running) (hp : w.broker.stop.pending = true) :
    ∃ w1, step w .stop = .ok w1 ∧ w1.lifecycle = .Draining ∧
      (∀ p ∈ w1.broker.subscribers, p.2 ≠ []) ∧
      (∀ p ∈ w.broker.subscribers, (flushEntry p).2 = [] →
        lookupSub p.1.id w1.broker.subscribers = none ∧
          closedCopy (flushEntry p).1 ∈ w1.released ∧ (closedCopy (flushEntry p).1).closed = true) ∧
      (∀ p ∈ w.broker.subscribers, (flushEntry p).2 ≠ [] →
        lookupSub p.1.id w1.broker.subscribers = some (flushEntry p)) := by
  have hwf := hw.wf
  have hex : w.exited = false := by
    cases h : w.exited
    · rfl
    · simp [World.lifecycle, h] at hrun
  have hc : w.broker.stop.closed = false := by
    cases h : w.broker.stop.closed
    · rfl
    · simp [World.lifecycle, hex, h] at hrun
  obtain ⟨n, h1, _⟩ := onStop_initial w hwf.allOpen hp hc
  refine ⟨swept (stopClosed w) n, by rw [step_stop_eq w hex]; exact h1, ?_, ?_, ?_, ?_⟩
  · simp [World.lifecycle, swept, stopClosed, timerPushed, hex]
  · intro p hp1 hnil
    have := (List.mem_filter.1 hp1).2
    simp [hnil] at this
  · intro p hp1 he
    have := ((swept_lookup (stopClosed w) n hwf.nodup p hp1).1 he)
    exact ⟨this.1, this.2, rfl⟩
  · intro p hp1 hne
    exact (swept_lookup (stopClosed w) n hwf.nodup p hp1).2 hne

/-- Witness for C17: a subscriber of capacity 1 whose inbox holds `a` with an
empty backlog, and a subscriber of capacity 0 with `a` in its backlog; the stop
request removes the first and keeps the second. -/
theorem initial_stop_postcondition_witness :
    ∃ w1, step (World.after [.regSub 1, .regSub 0, .content "a", .stopBroker]) .stop = .ok w1 ∧
      w1.lifecycle = .Draining ∧ (∀ p ∈ w1.broker.subscribers, p.2 ≠ []) := by
  obtain ⟨w1, h1, h2, h3, _⟩ := initial_stop_postcondition
    (World.after [.regSub 1, .regSub 0, .content "a", .stopBroker])
    ⟨[.regSub 1, .regSub 0, .content "a", .stopBroker], rfl⟩ rfl rfl
  exact ⟨w1, h1, h2, h3⟩

/-- C18, evaluated where it fails: `uintSize - 1` rounds of register, publish,
unregister leave the registry empty and the counter at the largest `uint`.
Then a subscriber of capacity 1 is registered, `a` is published into its inbox
and `b` into its backlog, where `cachenum++` wraps around to 0, and the
consumer receives `a`.  In this state the counter, 0, is below the sum of the
backlog lengths, 1.  The timer event hands `b` over to the inbox while the
guard `cachenum > 0` is false: the decrement is skipped. -/
theorem guard_skipped_after_wrap :
    ∃ w w1, run World.init
        (staleRounds 0 (uintSize - 1) ++
          [.regSub 1, .content "a", .content "b", .recv (uintSize - 1)]) = .ok w ∧
      w.broker.subscribers =
        [({ id := uintSize - 1, cap := 1, buf := [], closed := false, taken := ["a"] },
          ["b"])] ∧
      w.broker.cachenum = 0 ∧ backlogTotal w.broker.subscribers = 1 ∧
      ¬ backlogTotal w.broker.subscribers ≤ w.broker.cachenum ∧
      flushAllGuard w.broker.subscribers w.broker.cachenum = false ∧
      step w .timer = .ok w1 ∧
      w1.broker.subscribers =
        [({ id := uintSize - 1, cap := 1, buf := ["b"], closed := false, taken := ["a"] },
          [])] ∧
      w1.broker.cachenum = 0 := by
  obtain ⟨w0, h0, hex, hs, hc, hst, hf, ht⟩ := stale_wrap_state
  have hn : (w0.broker.cachenum + 1) % uintSize = 0 := by rw [hc]; exact uintSize_wrap
  rw [run_append _ _ _ _ h0]
  obtain ⟨⟨stop, subs, cachenum, timerChan⟩, exited, released, fresh⟩ := w0
  simp only at hex hs hst hf ht hn
  subst hex hs hst ht
  rw [← hf]
  simp [run, step, deleteSub, onContentPush, pushAll, pushSub, flush, trySend, lookupSub,
    onTimerPush, flushAll, recvIn, updateIn, recvSub, backlogTotal, flushAllGuard, flushGuard,
    hn]

/-- C19, evaluated where it fails: `uintSize - 1` rounds of register, publish,
unregister leave the registry empty and the counter at the largest `uint`.
Then a subscriber of capacity 0 is registered and `a` is published: `a` goes
into the backlog and `cachenum++` wraps around to 0.  The timer, armed since
the first round, fires: `onTimerPush` can hand nothing over, finds the counter
at 0 and disarms the timer.  The broker is running with `a` in the backlog of
a registered subscriber, the counter at 0 and no timer armed, so that no timer
event will flush that backlog. -/
theorem backlog_without_timer_after_wrap :
    ∃ w, run World.init
        (staleRounds 0 (uintSize - 1) ++ [.regSub 0, .content "a", .timer]) = .ok w ∧
      w.lifecycle = .Running ∧ w.lifecycle ≠ .Stopped ∧
      lookupSub (uintSize - 1) w.broker.subscribers =
        some ({ id := uintSize - 1, cap := 0, buf := [], closed := false, taken := [] },
          ["a"]) ∧
      w.broker.cachenum = 0 ∧ w.broker.timerChan = false ∧
      step w .timer = .error .notReady := by
  obtain ⟨w0, h0, hex, hs, hc, hst, hf, ht⟩ := stale_wrap_state
  have hn : (w0.broker.cachenum + 1) % uintSize = 0 := by rw [hc]; exact uintSize_wrap
  rw [run_append _ _ _ _ h0]
  obtain ⟨⟨stop, subs, cachenum, timerChan⟩, exited, released, fresh⟩ := w0
  simp only at hex hs hst hf ht hn
  subst hex hs hst ht
  rw [← hf]
  simp [run, step, deleteSub, onContentPush, pushAll, pushSub, flush, trySend, lookupSub,
    onTimerPush, flushAll, World.lifecycle, hn]


end Broker
